import Mathlib

/-!
Verification of the tree-control widget (`src/textual/widgets/_tree_control.py`)
and the event variant table (`src/textual/events.py`).

The Python tree is a mutable object graph: every `TreeNode` holds a `parent`
back-pointer, an ordered `children` list, an `id`, and flags (`expanded`,
`loaded`, `_empty`).  The `TreeControl` owns a registry `nodes : dict[NodeID,
TreeNode]` mapping ids to nodes; every node ever created is attached below the
root and never removed, so the registry contents coincide with the nodes of
the root's tree.  We embed this as a purely functional rose tree `NTree`; a
node of the tree is addressed by its access path from the root, written
innermost-first (`i :: q` is the `i`-th child of the node addressed by `q`,
`[]` is the root).  A parent pointer dereference is `Path.tail`, a registry
lookup is a search for the first node with the given id in preorder
(`findPath`), and the generic payload type parameter `NodeDataType` is
instantiated at `Nat`.
-/

namespace TreeSpec

/-- Payload type: `NodeDataType` of the source, instantiated at `Nat`. -/
abbrev NodeData := Nat

/-- A tree node (`TreeNode.__init__`, lines 28-47): id, label, data, and the
`loaded`, `_expanded`, `_empty` flags (all initialised `False`), plus the
ordered children list.  The parent pointer is represented by the position of
the node inside its parent rather than by a field. -/
inductive NTree : Type where
  | mk (id : Nat) (label : String) (data : NodeData)
       (loaded : Bool) (expanded : Bool) (empty : Bool)
       (children : List NTree)

namespace NTree

def id : NTree → Nat
  | .mk i _ _ _ _ _ _ => i

def label : NTree → String
  | .mk _ l _ _ _ _ _ => l

def data : NTree → NodeData
  | .mk _ _ d _ _ _ _ => d

def loaded : NTree → Bool
  | .mk _ _ _ ld _ _ _ => ld

def expanded : NTree → Bool
  | .mk _ _ _ _ e _ _ => e

def empty : NTree → Bool
  | .mk _ _ _ _ _ e _ => e

def children : NTree → List NTree
  | .mk _ _ _ _ _ _ cs => cs

/-- Replace the children list, keeping every other field. -/
def withChildren : NTree → List NTree → NTree
  | .mk i l d ld e em _, cs => .mk i l d ld e em cs

/-- Set the `_expanded` flag (`TreeNode.expand`, lines 145-148). -/
def withExpanded : NTree → Bool → NTree
  | .mk i l d ld _ em cs, e => .mk i l d ld e em cs

/-- Set the `_empty` flag (written only by `TreeNode.add`, line 156). -/
def withEmpty : NTree → Bool → NTree
  | .mk i l d ld e _ cs, em => .mk i l d ld e em cs

@[simp] theorem id_mk (i l d ld e em cs) : (NTree.mk i l d ld e em cs).id = i := rfl
@[simp] theorem label_mk (i l d ld e em cs) : (NTree.mk i l d ld e em cs).label = l := rfl
@[simp] theorem data_mk (i l d ld e em cs) : (NTree.mk i l d ld e em cs).data = d := rfl
@[simp] theorem loaded_mk (i l d ld e em cs) : (NTree.mk i l d ld e em cs).loaded = ld := rfl
@[simp] theorem expanded_mk (i l d ld e em cs) : (NTree.mk i l d ld e em cs).expanded = e := rfl
@[simp] theorem empty_mk (i l d ld e em cs) : (NTree.mk i l d ld e em cs).empty = em := rfl
@[simp] theorem children_mk (i l d ld e em cs) : (NTree.mk i l d ld e em cs).children = cs := rfl

@[simp] theorem id_withChildren (t : NTree) (cs) : (t.withChildren cs).id = t.id := by
  cases t; rfl
@[simp] theorem expanded_withChildren (t : NTree) (cs) : (t.withChildren cs).expanded = t.expanded := by
  cases t; rfl
@[simp] theorem empty_withChildren (t : NTree) (cs) : (t.withChildren cs).empty = t.empty := by
  cases t; rfl
@[simp] theorem children_withChildren (t : NTree) (cs) : (t.withChildren cs).children = cs := by
  cases t; rfl

end NTree

mutual

/-- Number of nodes of a tree. -/
def size : NTree → Nat
  | .mk _ _ _ _ _ _ cs => 1 + sizeList cs

/-- Number of nodes of a forest. -/
def sizeList : List NTree → Nat
  | [] => 0
  | t :: ts => size t + sizeList ts

end

theorem size_pos (t : NTree) : 1 ≤ size t := by
  cases t with
  | mk i l d ld e em cs => simp only [size]; omega

theorem size_mem_lt {c : NTree} {cs : List NTree} (h : c ∈ cs) :
    size c ≤ sizeList cs := by
  induction cs with
  | nil => cases h
  | cons a l ih =>
    cases h with
    | head => simp only [sizeList]; omega
    | tail _ h =>
      have := ih h
      simp only [sizeList]; omega

theorem sizeList_children_lt (t : NTree) : sizeList t.children < size t := by
  cases t with
  | mk i l d ld e em cs => simp only [NTree.children_mk, size]; omega

theorem size_child_lt {c t : NTree} (h : c ∈ t.children) : size c < size t := by
  cases t with
  | mk i l d ld e em cs =>
    have hle : size c ≤ sizeList cs := size_mem_lt (by simpa using h)
    simp only [size]; omega

theorem mem_of_getLast?_eq {α : Type} {l : List α} {a : α} (h : l.getLast? = some a) :
    a ∈ l := by
  obtain ⟨hne, heq⟩ := List.mem_getLast?_eq_getLast (l := l) (x := a) h
  rw [heq]
  exact List.getLast_mem hne

/-- Access path of a node, innermost index first: `i :: q` addresses the
`i`-th child of the node addressed by `q`; `[]` addresses the root.  The tail
of a path is the path of the node's parent. -/
abbrev Path := List Nat

/-- Dereference a path (follow the object pointer structure of the source). -/
def getR (root : NTree) : Path → Option NTree
  | [] => some root
  | i :: q => (getR root q).bind fun n => n.children[i]?

/-- Apply `f` to the `i`-th entry of a list, if present. -/
def modifyIdx (f : NTree → NTree) : Nat → List NTree → List NTree
  | _, [] => []
  | 0, c :: cs => f c :: cs
  | i + 1, c :: cs => c :: modifyIdx f i cs

/-- Mutate the node addressed by `p` in place (the Python code mutates the
node object; paths addressing nothing leave the tree unchanged). -/
def updateAtR (root : NTree) : Path → (NTree → NTree) → NTree
  | [], f => f root
  | i :: q, f => updateAtR root q fun n => n.withChildren (modifyIdx f i n.children)

mutual

/-- Registry lookup `self.nodes[node_id]`, as a path: the first node in
preorder whose id is `tgt` (ids are unique in every reachable state, see
`C9`). -/
def findPathA : NTree → Nat → Path → Option Path
  | .mk i _ _ _ _ _ cs, tgt, acc =>
    if i = tgt then some acc else findPathL cs tgt 0 acc

def findPathL : List NTree → Nat → Nat → Path → Option Path
  | [], _, _, _ => none
  | c :: cs, tgt, i, acc =>
    match findPathA c tgt (i :: acc) with
    | some p => some p
    | none => findPathL cs tgt (i + 1) acc

end

def findPath (t : NTree) (tgt : Nat) : Option Path := findPathA t tgt []

/-! ### Traversal (`TreeNode.next_sibling` etc., lines 74-143)

The Python properties walk the `parent` back-pointers of node objects; on
paths, the parent of `i :: q` is `q`, and scanning `parent.children` for the
node (`node is self`) recovers the index `i`. -/

/-- Source `TreeNode.next_sibling` (lines 117-129): the entry of `parent.children`
immediately after the node, or none if the node is last, or the root. -/
def next_sibling (root : NTree) : Path → Option Path
  | [] => none
  | i :: q =>
    match getR root q with
    | some parent => if i + 1 < parent.children.length then some ((i + 1) :: q) else none
    | none => none

/-- Source `TreeNode.previous_sibling` (lines 131-143): the entry immediately before
the node, or none if the node is first, or the root. -/
def previous_sibling : Path → Option Path
  | [] => none
  | i :: q => if i = 0 then none else some ((i - 1) :: q)

/-- The upward loop of `TreeNode.next_node` (lines 82-94): try the node's own
next sibling, then the parent's, the grandparent's, ...; none once a node
without parent (the root) is reached. -/
def upNext (root : NTree) : Path → Option Path
  | [] => none
  | i :: q =>
    match next_sibling root (i :: q) with
    | some r => some r
    | none => upNext root q

/-- Source `TreeNode.next_node` (lines 74-94): first child when expanded and
non-empty, else the first next sibling found on the way up.  The result is
the path of the next node; the node itself is `getR root` of it. -/
def next_node (root : NTree) (p : Path) : Option Path :=
  match getR root p with
  | none => none
  | some n =>
    if n.expanded && !n.children.isEmpty then some (0 :: p)
    else upNext root p

/-- Source `last_sibling` inside `TreeNode.previous_node` (lines 103-109): descend
into the last child while the current node is expanded and has children.
(The inner conditional of the Python `else` branch is dead: its condition is
the negation of the guard that chose the branch, so it returns `node`.) -/
def last_descendant (p : Path) (n : NTree) : Path :=
  if h : n.expanded = true ∧ 0 < n.children.length then
    last_descendant ((n.children.length - 1) :: p)
      (n.children.getLast (List.length_pos.mp h.2))
  else p
termination_by size n
decreasing_by
  exact size_child_lt (List.getLast_mem (List.length_pos.mp h.2))

/-- Source `TreeNode.previous_node` (lines 96-115): the deepest visible descendant of
the previous sibling if one exists, else the parent, else none (root). -/
def previous_node (root : NTree) (p : Path) : Option Path :=
  match previous_sibling p with
  | some r =>
    match getR root r with
    | some sib => some (last_descendant r sib)
    | none => none
  | none =>
    match p with
    | [] => none
    | _ :: q => some q

/-- A path is navigable when it addresses a node all of whose strict
ancestors are expanded (spec §4.3: nodes reachable by descending only into
expanded nodes; the root is always reachable). -/
def navigableR (root : NTree) : Path → Bool
  | [] => true
  | i :: q =>
    navigableR root q &&
      match getR root q with
      | some parent => parent.expanded && decide (i < parent.children.length)
      | none => false

mutual

/-- All nodes of a tree, in preorder (the contents of the `nodes` registry,
which holds every node ever created, lines 225/233/293). -/
def allNodes : NTree → List NTree
  | .mk i l d ld e em cs => NTree.mk i l d ld e em cs :: allNodesL cs

def allNodesL : List NTree → List NTree
  | [] => []
  | c :: cs => allNodes c ++ allNodesL cs

end

/-- The ids of all nodes, in preorder. -/
def allIds (t : NTree) : List Nat := (allNodes t).map NTree.id

mutual

/-- The ids visited by a full depth-first scan in navigable order, exactly as
`find_cursor` (lines 297-321) walks them: a node is always visited, its
children only when `node.children and node.expanded`. -/
def navIds : NTree → List Nat
  | .mk i _ _ _ e _ cs => i :: (if e then navIdsL cs else [])

def navIdsL : List NTree → List Nat
  | [] => []
  | c :: cs => navIds c ++ navIdsL cs

end

mutual

/-- Paths of the subtree rooted at path `p` (whose node is `t`), in navigable
preorder. -/
def navAt : NTree → Path → List Path
  | .mk _ _ _ _ e _ cs, p => p :: (if e then navChildren cs 0 p else [])

def navChildren : List NTree → Nat → Path → List Path
  | [], _, _ => []
  | c :: cs, i, p => navAt c (i :: p) ++ navChildren cs (i + 1) p

end

/-- Iterate `next_node` starting from path `p` with the given amount of fuel
(claims quantify this sequence; `size root` fuel is always enough). -/
def nextChain (root : NTree) : Nat → Path → List Path
  | 0, p => [p]
  | fuel + 1, p =>
    p ::
      match next_node root p with
      | some q => nextChain root fuel q
      | none => []

/-- The sequence obtained by iterating `next_node` from the root. -/
def nextSeq (root : NTree) : List Path := nextChain root (size root) []

/-! ### `TreeControl.find_cursor` (lines 297-321)

The Python function runs an explicit stack of child iterators; a partially
consumed iterator is the list of its remaining elements, and the top of the
stack is the head of the stack list. -/

/-- Total size of the trees held on the iterator stack. -/
def stackSize : List (List NTree) → Nat
  | [] => 0
  | l :: s => sizeList l + stackSize s

/-- The loop of `find_cursor`: pop an iterator; if exhausted continue; else
take its next node, return the current line if its id matches, otherwise
count the line, push back the rest and, when `node.children and
node.expanded`, push the children iterator on top. -/
def findCursorAux (tgt : Nat) : Nat → List (List NTree) → Option Nat
  | _, [] => none
  | line, [] :: stack => findCursorAux tgt line stack
  | line, (node :: rest) :: stack =>
    if node.id = tgt then some line
    else
      findCursorAux tgt (line + 1)
        (if !node.children.isEmpty && node.expanded then
          node.children :: rest :: stack
        else rest :: stack)
termination_by _ stack => (stackSize stack, stack.length)
decreasing_by
  · have h : stackSize ([] :: stack) = stackSize stack := by
      simp only [stackSize, sizeList]; omega
    rw [h]
    exact Prod.Lex.right _ (by simp)
  · have hc : sizeList node.children + 1 = size node := by
      cases node with
      | mk i l d ld e em cs => simp only [NTree.children_mk, size]; omega
    split
    · apply Prod.Lex.left
      simp only [stackSize, sizeList]
      omega
    · apply Prod.Lex.left
      simp only [stackSize, sizeList]
      omega

/-! ### The `TreeControl` state (lines 172-426)

Only the core state is modelled: the rich-text `Tree` mirror, styling,
watchers and message emission are rendering-side effects outside this core
(spec §1/§6).  `cursor_line` is a Python `int` and may drift from the true
line of the cursor after collapses, so it is an `Int`. -/

structure TreeControl where
  /-- Counter `self.node_id` (line 224): the id counter, holding the last allocated id. -/
  node_id : Nat
  /-- The root node with the whole tree hanging below it; the registry
  `self.nodes` consists of exactly the nodes of this tree. -/
  tree : NTree
  /-- Reactive `cursor` (line 237), default id 0. -/
  cursor : Nat
  /-- Reactive `cursor_line` (line 238), default 0. -/
  cursor_line : Int
  /-- Reactive `show_cursor` (line 239), default `False`. -/
  show_cursor : Bool
  /-- Reactive `hover_node` (line 236), default `None`. -/
  hover_node : Option Nat

/-- Source `TreeControl.__init__` (lines 213-234): id counter 0, a registry holding
only the root (id 0, fresh flags), reactive attributes at their defaults. -/
def mkControl (label : String) (data : NodeData) : TreeControl :=
  { node_id := 0
    tree := NTree.mk 0 label data false false false []
    cursor := 0
    cursor_line := 0
    show_cursor := false
    hover_node := none }

/-- The error raised by a failed registry lookup (`KeyError`, spec: `NotFound`). -/
abbrev NotFound := Unit

/-- The state change of `TreeControl.add` (lines 277-295) once the parent has
been found at path `p`: bump the id counter and append a fresh child node
(flags as produced by `TreeNode.__init__`) at the end of the parent's
children. -/
def addCore (c : TreeControl) (p : Path) (label : String) (data : NodeData) :
    TreeControl :=
  let nid := c.node_id + 1
  let child := NTree.mk nid label data false false false []
  { c with
    node_id := nid
    tree := updateAtR c.tree p fun n => n.withChildren (n.children ++ [child]) }

/-- Source `TreeControl.add(node_id, label, data)` (lines 277-295): look up the
parent in the registry (`KeyError`/`NotFound` when absent — nothing has been
mutated at that point), allocate the next id, append the new child, register
it.  The Python function is annotated `-> None` and has no return statement:
its result is `None`, modelled by the second component. -/
def TreeControl.add (c : TreeControl) (node_id : Nat) (label : String)
    (data : NodeData) : Except NotFound (TreeControl × Option Nat) :=
  match findPath c.tree node_id with
  | none => .error ()
  | some p => .ok (addCore c p label data, none)

/-- Source `TreeNode.add(label, data)` (lines 153-157): delegate to
`TreeControl.add` with the node's own id, then set the node's `_empty` flag
to `False`.  Also returns `None`. -/
def tree_node_add (c : TreeControl) (node_id : Nat) (label : String)
    (data : NodeData) : Except NotFound (TreeControl × Option Nat) :=
  match findPath c.tree node_id with
  | none => .error ()
  | some p =>
    let c1 := addCore c p label data
    .ok ({ c1 with tree := updateAtR c1.tree p fun n => n.withEmpty false }, none)

/-- Source `TreeControl.find_cursor` (lines 297-321): depth-first scan from the root
counting lines, returning the line of the first node whose id is `cursor`. -/
def find_cursor (c : TreeControl) : Option Nat :=
  findCursorAux c.cursor 0 [[c.tree]]

/-- Source `TreeControl.cursor_down` (lines 408-416): when the cursor is hidden,
only reveal it; otherwise look up the cursor node (`KeyError` if the cursor
id is not registered) and, when it has a next node, increment `cursor_line`
and move `cursor` to that node's id. -/
def cursor_down (c : TreeControl) : Except NotFound TreeControl :=
  if !c.show_cursor then .ok { c with show_cursor := true }
  else
    match findPath c.tree c.cursor with
    | none => .error ()
    | some p =>
      match next_node c.tree p with
      | some q =>
        match getR c.tree q with
        | some n => .ok { c with cursor_line := c.cursor_line + 1, cursor := n.id }
        | none => .error ()
      | none => .ok c

/-- Source `TreeControl.cursor_up` (lines 418-426): symmetric to `cursor_down`. -/
def cursor_up (c : TreeControl) : Except NotFound TreeControl :=
  if !c.show_cursor then .ok { c with show_cursor := true }
  else
    match findPath c.tree c.cursor with
    | none => .error ()
    | some p =>
      match previous_node c.tree p with
      | some q =>
        match getR c.tree q with
        | some n => .ok { c with cursor_line := c.cursor_line - 1, cursor := n.id }
        | none => .error ()
      | none => .ok c

/-- Source `TreeControl.key_home` (lines 395-397): cursor back to the root,
`cursor_line` 0, unconditionally. -/
def key_home (c : TreeControl) : TreeControl :=
  { c with cursor_line := 0, cursor := 0 }

/-- Source `TreeControl.key_end` (lines 399-401): `cursor` becomes the id of the
last child of `nodes[0]` (`KeyError` when id 0 is unregistered, `IndexError`
when it has no children), then `cursor_line` is recomputed by
`self.find_cursor() or 0` — which maps both `None` and `0` to `0`. -/
def key_end (c : TreeControl) : Except NotFound TreeControl :=
  match findPath c.tree 0 with
  | none => .error ()
  | some p =>
    match getR c.tree p with
    | none => .error ()
    | some n =>
      match n.children.getLast? with
      | none => .error ()
      | some lastChild =>
        let c1 := { c with cursor := lastChild.id }
        .ok { c1 with cursor_line := ((find_cursor c1).getD 0 : Nat) }

/-- Source `TreeNode.expand(expanded)` (lines 145-148): set the `_expanded` flag of
the node with the given id (a node object reference in Python; every node
object is registered, so lookup by id). -/
def expandNode (c : TreeControl) (node_id : Nat) (value : Bool) : TreeControl :=
  match findPath c.tree node_id with
  | none => c
  | some p => { c with tree := updateAtR c.tree p fun n => n.withExpanded value }

/-- Source `TreeNode.toggle` (lines 150-151): `expand(not expanded)`. -/
def toggleNode (c : TreeControl) (node_id : Nat) : TreeControl :=
  match findPath c.tree node_id with
  | none => c
  | some p => { c with tree := updateAtR c.tree p fun n => n.withExpanded (!n.expanded) }

/-! ### Operation sequences -/

/-- Runs `TreeControl.add` repeated over a list of `(parent_id, label, data)`
requests, collecting the id allocated by each successful call (the id a
failed `NotFound` call never allocates). -/
def runAdds : TreeControl → List (Nat × String × NodeData) → TreeControl × List Nat
  | c, [] => (c, [])
  | c, (pid, label, data) :: ops =>
    match TreeControl.add c pid label data with
    | .error _ => runAdds c ops
    | .ok (c1, _) =>
      let (cf, ids) := runAdds c1 ops
      (cf, c1.node_id :: ids)

/-- The state-mutating operations of this core (claims quantify over
arbitrary interleavings of them). -/
inductive Op : Type where
  | add (parent_id : Nat) (label : String) (data : NodeData)
  | nodeAdd (parent_id : Nat) (label : String) (data : NodeData)
  | expand (node_id : Nat) (value : Bool)
  | toggle (node_id : Nat)
  | cursorDown
  | cursorUp
  | keyHome
  | keyEnd

/-- Apply one operation; an operation that raises leaves the state as it was
when the exception escaped (none of the modelled operations mutates state
before raising). -/
def applyOp (c : TreeControl) : Op → TreeControl
  | .add pid label data =>
    match TreeControl.add c pid label data with
    | .ok (c1, _) => c1
    | .error _ => c
  | .nodeAdd pid label data =>
    match tree_node_add c pid label data with
    | .ok (c1, _) => c1
    | .error _ => c
  | .expand nid v => expandNode c nid v
  | .toggle nid => toggleNode c nid
  | .cursorDown =>
    match cursor_down c with
    | .ok c1 => c1
    | .error _ => c
  | .cursorUp =>
    match cursor_up c with
    | .ok c1 => c1
    | .error _ => c
  | .keyHome => key_home c
  | .keyEnd =>
    match key_end c with
    | .ok c1 => c1
    | .error _ => c

def runOps (c : TreeControl) : List Op → TreeControl
  | [] => c
  | op :: ops => runOps (applyOp c op) ops

/-! ### Basic path lemmas -/

@[simp] theorem getR_nil (root : NTree) : getR root [] = some root := rfl

theorem getR_cons (root : NTree) (i : Nat) (q : Path) :
    getR root (i :: q) = (getR root q).bind fun n => n.children[i]? := rfl

theorem getR_append (root : NTree) (a b : Path) :
    getR root (a ++ b) = (getR root b).bind fun n => getR n a := by
  induction a with
  | nil =>
    simp only [List.nil_append]
    cases getR root b <;> simp [getR]
  | cons i a ih =>
    simp only [List.cons_append, getR_cons, ih]
    cases getR root b with
    | none => simp
    | some n => simp [getR_cons]

theorem getElem?_modifyIdx (f : NTree → NTree) (i j : Nat) (l : List NTree) :
    (modifyIdx f i l)[j]? = if i = j then (l[j]?).map f else l[j]? := by
  induction l generalizing i j with
  | nil => simp [modifyIdx]
  | cons c cs ih =>
    cases i with
    | zero =>
      cases j with
      | zero => simp [modifyIdx]
      | succ j => simp [modifyIdx]
    | succ i =>
      cases j with
      | zero => simp [modifyIdx]
      | succ j =>
        simp only [modifyIdx, List.getElem?_cons_succ, ih]
        by_cases h : i = j
        · simp [h]
        · rw [if_neg h, if_neg (fun hh => h (Nat.succ_injective hh))]

theorem length_modifyIdx (f : NTree → NTree) (i : Nat) (l : List NTree) :
    (modifyIdx f i l).length = l.length := by
  induction l generalizing i with
  | nil => simp [modifyIdx]
  | cons c cs ih =>
    cases i with
    | zero => simp [modifyIdx]
    | succ i => simp [modifyIdx, ih]

theorem mem_modifyIdx {x : NTree} (f : NTree → NTree) (i : Nat) (l : List NTree)
    (h : x ∈ modifyIdx f i l) : x ∈ l ∨ ∃ y ∈ l, x = f y := by
  induction l generalizing i with
  | nil => simp [modifyIdx] at h
  | cons c cs ih =>
    cases i with
    | zero =>
      rcases List.mem_cons.mp h with h | h
      · exact Or.inr ⟨c, List.mem_cons_self c cs, h⟩
      · exact Or.inl (List.mem_cons_of_mem _ h)
    | succ i =>
      rcases List.mem_cons.mp h with h | h
      · exact Or.inl (h ▸ List.mem_cons_self c cs)
      · rcases ih i h with h | ⟨y, hy, hxy⟩
        · exact Or.inl (List.mem_cons_of_mem _ h)
        · exact Or.inr ⟨y, List.mem_cons_of_mem _ hy, hxy⟩

/-- Reading back the path that was updated. -/
theorem getR_updateAtR_self (root : NTree) (p : Path) (f : NTree → NTree) :
    getR (updateAtR root p f) p = (getR root p).map f := by
  induction p generalizing f with
  | nil => simp [updateAtR, getR]
  | cons i q ih =>
    simp only [updateAtR, getR_cons, ih]
    cases getR root q with
    | none => simp
    | some n =>
      simp [getElem?_modifyIdx]

/-- A navigable path addresses a node. -/
theorem isSome_getR_of_navigableR {root : NTree} :
    ∀ {p : Path}, navigableR root p = true → (getR root p).isSome = true := by
  intro p
  induction p with
  | nil => intro _; simp
  | cons i q ih =>
    intro h
    simp only [navigableR, Bool.and_eq_true] at h
    obtain ⟨h1, h2⟩ := h
    rcases hq : getR root q with _ | par
    · rw [hq] at h2; simp at h2
    · rw [hq] at h2
      simp only [Bool.and_eq_true, decide_eq_true_eq] at h2
      obtain ⟨he, hl⟩ := h2
      simp only [getR_cons, hq, Option.some_bind]
      rw [List.getElem?_eq_getElem hl]
      rfl

/-- Every suffix of a navigable path is navigable. -/
theorem navigableR_suffix {root : NTree} :
    ∀ {a b : Path}, navigableR root (a ++ b) = true → navigableR root b = true := by
  intro a
  induction a with
  | nil => intro b h; exact h
  | cons i a ih =>
    intro b h
    simp only [List.cons_append, navigableR, Bool.and_eq_true] at h
    exact ih h.1

/-! ### Membership of nodes and ids -/

theorem mem_allNodesL {x : NTree} {cs : List NTree} :
    x ∈ allNodesL cs ↔ ∃ c ∈ cs, x ∈ allNodes c := by
  induction cs with
  | nil => simp [allNodesL]
  | cons c cs ih =>
    simp only [allNodesL, List.mem_append, ih, List.mem_cons]
    constructor
    · rintro (h | ⟨d, hd, hx⟩)
      · exact ⟨c, Or.inl rfl, h⟩
      · exact ⟨d, Or.inr hd, hx⟩
    · rintro ⟨d, hd | hd, hx⟩
      · exact Or.inl (hd ▸ hx)
      · exact Or.inr ⟨d, hd, hx⟩

theorem self_mem_allNodes (t : NTree) : t ∈ allNodes t := by
  cases t with
  | mk i l d ld e em cs => simp [allNodes]

theorem allNodes_eq_cons (t : NTree) : allNodes t = t :: allNodesL t.children := by
  cases t with
  | mk i l d ld e em cs => simp [allNodes]

theorem mem_allNodes_trans {x c t : NTree} (hc : c ∈ t.children)
    (hx : x ∈ allNodes c) : x ∈ allNodes t := by
  rw [allNodes_eq_cons]
  exact List.mem_cons_of_mem _ (mem_allNodesL.mpr ⟨c, hc, hx⟩)

/-- The registry is closed under taking children. -/
theorem child_mem_allNodes (root : NTree) {par n : NTree}
    (hp : par ∈ allNodes root) (hn : n ∈ par.children) : n ∈ allNodes root := by
  rw [allNodes_eq_cons] at hp
  rcases List.mem_cons.mp hp with h | h
  · subst h
    rw [allNodes_eq_cons]
    exact List.mem_cons_of_mem _ (mem_allNodesL.mpr ⟨n, hn, self_mem_allNodes n⟩)
  · rcases mem_allNodesL.mp h with ⟨c, hc, hpar⟩
    exact mem_allNodes_trans hc (child_mem_allNodes c hpar hn)
termination_by size root
decreasing_by exact size_child_lt hc

/-- The node addressed by a path belongs to the registry contents. -/
theorem mem_allNodes_of_getR {root : NTree} :
    ∀ {p : Path} {n : NTree}, getR root p = some n → n ∈ allNodes root := by
  intro p
  induction p with
  | nil => intro n h; cases h; exact self_mem_allNodes root
  | cons i q ih =>
    intro n h
    simp only [getR_cons] at h
    rcases hq : getR root q with _ | par
    · rw [hq] at h; simp at h
    · rw [hq] at h
      simp only [Option.some_bind] at h
      exact child_mem_allNodes root (ih hq) (List.getElem?_mem h)

/-! ### Soundness and completeness of the registry lookup -/

/-- Ids of a forest, in preorder. -/
def allIdsL (cs : List NTree) : List Nat := (allNodesL cs).map NTree.id

theorem allIds_eq_cons (t : NTree) : allIds t = t.id :: allIdsL t.children := by
  rw [allIds, allNodes_eq_cons, List.map_cons, allIdsL]

theorem allIdsL_cons (c : NTree) (cs : List NTree) :
    allIdsL (c :: cs) = allIds c ++ allIdsL cs := by
  rw [allIdsL, allNodesL, List.map_append, allIds, allIdsL]

mutual

theorem findPathA_sound (root t : NTree) (tgt : Nat) (acc : Path)
    (hacc : getR root acc = some t) :
    ∀ p, findPathA t tgt acc = some p → ∃ n, getR root p = some n ∧ n.id = tgt := by
  intro p hp
  cases t with
  | mk i l d ld e em cs =>
    rw [findPathA] at hp
    by_cases hi : i = tgt
    · rw [if_pos hi] at hp
      cases hp
      exact ⟨_, hacc, hi⟩
    · rw [if_neg hi] at hp
      refine findPathL_sound root cs tgt 0 acc ?_ p hp
      intro j c hj
      rw [getR_cons, hacc, Option.some_bind]
      simpa using hj

theorem findPathL_sound (root : NTree) (cs : List NTree) (tgt i : Nat) (acc : Path)
    (hcs : ∀ j c, cs[j]? = some c → getR root ((i + j) :: acc) = some c) :
    ∀ p, findPathL cs tgt i acc = some p → ∃ n, getR root p = some n ∧ n.id = tgt := by
  intro p hp
  match cs, hcs with
  | [], _ => simp [findPathL] at hp
  | c :: cs, hcs =>
    rw [findPathL] at hp
    rcases hA : findPathA c tgt (i :: acc) with _ | q
    · rw [hA] at hp
      refine findPathL_sound root cs tgt (i + 1) acc ?_ p hp
      intro j c' hj
      have := hcs (j + 1) c' (by simpa using hj)
      rwa [show i + (j + 1) = i + 1 + j by omega] at this
    · rw [hA] at hp
      cases hp
      exact findPathA_sound root c tgt (i :: acc)
        (by simpa using hcs 0 c (by simp)) _ hA

end

mutual

theorem findPathA_none (t : NTree) (tgt : Nat) (acc : Path) :
    findPathA t tgt acc = none ↔ tgt ∉ allIds t := by
  cases t with
  | mk i l d ld e em cs =>
    rw [findPathA, allIds_eq_cons]
    by_cases hi : i = tgt
    · simp [if_pos hi, hi]
    · rw [if_neg hi]
      rw [findPathL_none cs tgt 0 acc]
      simp only [NTree.id_mk, NTree.children_mk, List.mem_cons]
      constructor
      · intro h hmem
        rcases hmem with h2 | h2
        · exact hi h2.symm
        · exact h h2
      · intro h h2
        exact h (Or.inr h2)

theorem findPathL_none (cs : List NTree) (tgt i : Nat) (acc : Path) :
    findPathL cs tgt i acc = none ↔ tgt ∉ allIdsL cs := by
  match cs with
  | [] => simp [findPathL, allIdsL, allNodesL]
  | c :: cs =>
    rw [findPathL, allIdsL_cons]
    rcases hA : findPathA c tgt (i :: acc) with _ | q
    · have h1 : tgt ∉ allIds c := (findPathA_none c tgt (i :: acc)).mp hA
      rw [findPathL_none cs tgt (i + 1) acc]
      simp only [List.mem_append]
      constructor
      · intro h hmem
        rcases hmem with h2 | h2
        · exact h1 h2
        · exact h h2
      · intro h h2
        exact h (Or.inr h2)
    · constructor
      · intro h; cases h
      · intro h
        exfalso
        apply h
        rw [List.mem_append]
        left
        by_contra h2
        rw [← findPathA_none c tgt (i :: acc)] at h2
        rw [h2] at hA
        cases hA

end

/-- Lookup of a present id succeeds with a path to a node carrying that id. -/
theorem findPath_mem (t : NTree) (tgt : Nat) (hmem : tgt ∈ allIds t) :
    ∃ p n, findPath t tgt = some p ∧ getR t p = some n ∧ n.id = tgt := by
  rcases hf : findPath t tgt with _ | p
  · rw [findPath] at hf
    exact absurd hmem ((findPathA_none t tgt []).mp hf)
  · rcases findPathA_sound t t tgt [] rfl p hf with ⟨n, hn, hid⟩
    exact ⟨p, n, rfl, hn, hid⟩

/-! ### The deepest visible descendant -/

/-- Function `last_sibling` stops at a node it cannot descend from, and the upward
sibling search from there coincides with the one from the node it started
at: every node passed on the way down is the last child of its parent. -/
theorem last_descendant_spec (root t : NTree) (p : Path) (h : getR root p = some t) :
    (∃ m, getR root (last_descendant p t) = some m ∧
        (m.expanded = false ∨ m.children = [])) ∧
      upNext root (last_descendant p t) = upNext root p := by
  by_cases hd : t.expanded = true ∧ 0 < t.children.length
  · rw [last_descendant, dif_pos hd]
    have hne : t.children ≠ [] := List.length_pos.mp hd.2
    have hc : getR root ((t.children.length - 1) :: p)
        = some (t.children.getLast hne) := by
      rw [getR_cons, h, Option.some_bind, ← List.getLast?_eq_getElem?,
        List.getLast?_eq_getLast_of_ne_nil hne]
    obtain ⟨hm, hup⟩ :=
      last_descendant_spec root (t.children.getLast hne)
        ((t.children.length - 1) :: p) hc
    refine ⟨hm, ?_⟩
    rw [hup, upNext]
    have hns : next_sibling root ((t.children.length - 1) :: p) = none := by
      have hlen := hd.2
      simp only [next_sibling, h]
      rw [if_neg (by omega)]
    rw [hns]
  · rw [last_descendant, dif_neg hd]
    refine ⟨⟨t, h, ?_⟩, rfl⟩
    rcases Decidable.not_and_iff_or_not.mp hd with h1 | h1
    · exact Or.inl (by simpa using h1)
    · exact Or.inr (by simpa [List.length_pos] using h1)
termination_by size t
decreasing_by exact size_child_lt (List.getLast_mem hne)

/-! ### The navigable preorder is the `next_node` chain -/

theorem navAt_eq (t : NTree) (p : Path) :
    navAt t p = p :: (if t.expanded then navChildren t.children 0 p else []) := by
  cases t with
  | mk i l d ld e em cs => simp [navAt]

theorem navAt_exists_cons (t : NTree) (p : Path) :
    ∃ rest, navAt t p = p :: rest := ⟨_, navAt_eq t p⟩

theorem navAt_ne_nil (t : NTree) (p : Path) : navAt t p ≠ [] := by
  obtain ⟨rest, h⟩ := navAt_exists_cons t p
  simp [h]

theorem navAt_head (t : NTree) (p : Path) : (navAt t p).head? = some p := by
  obtain ⟨rest, h⟩ := navAt_exists_cons t p
  simp [h]

theorem navChildren_ne_nil (c : NTree) (cs : List NTree) (i : Nat) (p : Path) :
    navChildren (c :: cs) i p ≠ [] := by
  rw [navChildren]
  intro h
  rcases List.append_eq_nil.mp h with ⟨h1, _⟩
  exact navAt_ne_nil c (i :: p) h1

theorem navChildren_ne_nil_of_ne {cs : List NTree} (hne : cs ≠ []) (i : Nat) (p : Path) :
    navChildren cs i p ≠ [] := by
  match cs, hne with
  | c :: cs, _ => exact navChildren_ne_nil c cs i p

theorem navChildren_head (c : NTree) (cs : List NTree) (i : Nat) (p : Path) :
    (navChildren (c :: cs) i p).head? = some (i :: p) := by
  rw [navChildren]
  obtain ⟨rest, h⟩ := navAt_exists_cons c (i :: p)
  rw [h]
  simp

theorem last_descendant_pos {t : NTree} (p : Path)
    (hd : t.expanded = true ∧ 0 < t.children.length) :
    last_descendant p t
      = last_descendant ((t.children.length - 1) :: p)
          (t.children.getLast (List.length_pos.mp hd.2)) := by
  rw [last_descendant]
  exact dif_pos hd

theorem last_descendant_neg {t : NTree} (p : Path)
    (hd : ¬(t.expanded = true ∧ 0 < t.children.length)) :
    last_descendant p t = p := by
  rw [last_descendant]
  exact dif_neg hd

mutual

theorem navAt_getLast (t : NTree) (p : Path) :
    (navAt t p).getLast? = some (last_descendant p t) := by
  rw [navAt_eq]
  by_cases hd : t.expanded = true ∧ 0 < t.children.length
  · rw [if_pos hd.1, last_descendant_pos p hd]
    have hne : t.children ≠ [] := List.length_pos.mp hd.2
    rw [show (p :: navChildren t.children 0 p) = [p] ++ navChildren t.children 0 p
      from rfl]
    rw [List.getLast?_append_of_ne_nil _ (navChildren_ne_nil_of_ne hne 0 p)]
    rw [navChildren_getLast t.children hne 0 p]
    have harith : 0 + t.children.length - 1 = t.children.length - 1 := by omega
    rw [harith]
  · rw [last_descendant_neg p hd]
    rcases Decidable.not_and_iff_or_not.mp hd with h1 | h1
    · have h1 : t.expanded = false := by simpa using h1
      rw [if_neg (by simp [h1])]
      rfl
    · have h2 : t.children = [] := List.length_eq_zero.mp (by omega)
      rw [h2]
      by_cases he : t.expanded <;> simp [he, navChildren]
termination_by (size t, 0)
decreasing_by
  apply Prod.Lex.left
  exact sizeList_children_lt t

theorem navChildren_getLast (cs : List NTree) (hne : cs ≠ []) (i : Nat) (p : Path) :
    (navChildren cs i p).getLast?
      = some (last_descendant ((i + cs.length - 1) :: p) (cs.getLast hne)) := by
  match cs, hne with
  | [c], _ =>
    rw [navChildren, navChildren]
    simp only [List.append_nil]
    rw [navAt_getLast]
    have harith : i + ([c] : List NTree).length - 1 = i := by simp
    rw [harith]
    rfl
  | c :: c' :: cs', _ =>
    rw [navChildren]
    rw [List.getLast?_append_of_ne_nil _ (navChildren_ne_nil c' cs' (i + 1) p)]
    rw [navChildren_getLast (c' :: cs') (by simp) (i + 1) p]
    have hgl : (c :: c' :: cs').getLast (by simp) = (c' :: cs').getLast (by simp) :=
      List.getLast_cons (by simp)
    rw [hgl]
    have harith : i + 1 + (c' :: cs').length - 1 = i + (c :: c' :: cs').length - 1 := by
      simp only [List.length_cons]
      omega
    rw [harith]
termination_by (sizeList cs, 1)
decreasing_by
  · have h : sizeList [c] = size c := by simp only [sizeList]; omega
    rw [h]
    exact Prod.Lex.right _ (by omega)
  · apply Prod.Lex.left
    have := size_pos c
    simp only [sizeList]
    omega

end

theorem next_node_at {root n : NTree} {p : Path} (h : getR root p = some n) :
    next_node root p
      = if n.expanded && !n.children.isEmpty then some (0 :: p)
        else upNext root p := by
  simp only [next_node, h]

theorem next_sibling_cons {root par : NTree} {q : Path} (h : getR root q = some par)
    (i : Nat) :
    next_sibling root (i :: q)
      = if i + 1 < par.children.length then some ((i + 1) :: q) else none := by
  simp only [next_sibling, h]

mutual

theorem chain_navAt (root t : NTree) (p : Path) (h : getR root p = some t) :
    List.Chain' (fun a b => next_node root a = some b) (navAt t p) := by
  rw [navAt_eq]
  by_cases hd : t.expanded = true ∧ 0 < t.children.length
  · rw [if_pos hd.1]
    apply List.chain'_cons'.mpr
    constructor
    · intro y hy
      rcases hcs : t.children with _ | ⟨c, cs⟩
      · rw [hcs] at hd; simp at hd
      · rw [hcs, navChildren_head] at hy
        have hy : 0 :: p = y := by simpa using hy
        subst hy
        rw [next_node_at h]
        rw [if_pos (by simp [hd.1, hcs])]
    · exact chain_navChildren root t p h hd.1 t.children 0 (by omega)
        (by intro j c hj; simpa using hj)
  · rcases Decidable.not_and_iff_or_not.mp hd with h1 | h1
    · rw [if_neg (by simpa using h1)]
      simp
    · have h2 : t.children = [] := List.length_eq_zero.mp (by omega)
      rw [h2]
      by_cases he : t.expanded <;> simp [he, navChildren]
termination_by (size t, 0)
decreasing_by
  apply Prod.Lex.left
  exact sizeList_children_lt t

theorem chain_navChildren (root par : NTree) (p : Path) (h : getR root p = some par)
    (he : par.expanded = true) (cs : List NTree) (i : Nat)
    (hlen : i + cs.length = par.children.length)
    (hcs : ∀ j c, cs[j]? = some c → par.children[i + j]? = some c) :
    List.Chain' (fun a b => next_node root a = some b) (navChildren cs i p) := by
  match cs, hlen, hcs with
  | [], _, _ => simp [navChildren]
  | c :: cs, hlen, hcs =>
    rw [navChildren]
    have hci : getR root (i :: p) = some c := by
      rw [getR_cons, h, Option.some_bind]
      simpa using hcs 0 c (by simp)
    apply List.chain'_append.mpr
    refine ⟨chain_navAt root c (i :: p) hci,
      chain_navChildren root par p h he cs (i + 1)
        (by simp only [List.length_cons] at hlen; omega)
        (by
          intro j c' hj
          have := hcs (j + 1) c' (by simpa using hj)
          rwa [show i + (j + 1) = i + 1 + j by omega] at this), ?_⟩
    intro x hx y hy
    rcases cs with _ | ⟨c', cs'⟩
    · simp [navChildren] at hy
    · rw [navChildren_head] at hy
      have hy : (i + 1) :: p = y := by simpa using hy
      subst hy
      rw [navAt_getLast] at hx
      have hx : last_descendant (i :: p) c = x := by simpa using hx
      subst hx
      obtain ⟨⟨m, hm, hflag⟩, hup⟩ := last_descendant_spec root c (i :: p) hci
      rw [next_node_at hm]
      have hcond : (m.expanded && !m.children.isEmpty) = false := by
        rcases hflag with hf | hf <;> simp [hf]
      rw [hcond]
      simp only [Bool.false_eq_true, if_false]
      rw [hup, upNext]
      rw [next_sibling_cons h i]
      rw [if_pos (by simp only [List.length_cons] at hlen; omega)]
termination_by (sizeList cs, 1)
decreasing_by
  · have h2 : size c ≤ sizeList (c :: cs) := by simp only [sizeList]; omega
    rcases Nat.lt_or_ge (size c) (sizeList (c :: cs)) with hlt | hge
    · exact Prod.Lex.left _ _ hlt
    · have h3 : size c = sizeList (c :: cs) := by omega
      rw [h3]
      exact Prod.Lex.right _ (by omega)
  · apply Prod.Lex.left
    have := size_pos c
    simp only [sizeList]
    omega

end

/-- A finite `next_node`-linked list whose final element has no successor is
reproduced by iterating `next_node` from its head, with enough fuel. -/
theorem nextChain_of_chain (root : NTree) :
    ∀ (L : List Path) (p : Path) (fuel : Nat),
      L.head? = some p →
      List.Chain' (fun a b => next_node root a = some b) L →
      (∀ x, L.getLast? = some x → next_node root x = none) →
      L.length ≤ fuel + 1 →
      nextChain root fuel p = L := by
  intro L
  induction L with
  | nil => intro p fuel hh; simp at hh
  | cons a L ih =>
    intro p fuel hh hchain hlast hlen
    have ha : a = p := by simpa using hh
    subst ha
    rcases L with _ | ⟨b, L⟩
    · have hnone : next_node root a = none := hlast a rfl
      cases fuel with
      | zero => rfl
      | succ f => rw [nextChain, hnone]
    · have hab : next_node root a = some b := (List.chain'_cons.mp hchain).1
      cases fuel with
      | zero => simp at hlen
      | succ f =>
        rw [nextChain, hab]
        congr 1
        apply ih b f rfl (List.chain'_cons.mp hchain).2
        · intro x hx
          exact hlast x (by rwa [List.getLast?_cons_cons])
        · simp only [List.length_cons] at hlen ⊢
          omega

mutual

theorem navAt_length (t : NTree) (p : Path) : (navAt t p).length ≤ size t := by
  rw [navAt_eq]
  have hs : size t = 1 + sizeList t.children := by
    cases t with
    | mk i l d ld e em cs => simp [size]
  by_cases he : t.expanded
  · rw [if_pos he]
    have := navChildren_length t.children 0 p
    simp only [List.length_cons]
    omega
  · rw [if_neg he]
    simp only [List.length_cons, List.length_nil]
    omega
termination_by (size t, 0)
decreasing_by
  apply Prod.Lex.left
  exact sizeList_children_lt t

theorem navChildren_length (cs : List NTree) (i : Nat) (p : Path) :
    (navChildren cs i p).length ≤ sizeList cs := by
  match cs with
  | [] => simp [navChildren]
  | c :: cs =>
    rw [navChildren]
    have h1 := navAt_length c (i :: p)
    have h2 := navChildren_length cs (i + 1) p
    simp only [List.length_append, sizeList]
    omega
termination_by (sizeList cs, 1)
decreasing_by
  · have h2 : size c ≤ sizeList (c :: cs) := by simp only [sizeList]; omega
    rcases Nat.lt_or_ge (size c) (sizeList (c :: cs)) with hlt | hge
    · exact Prod.Lex.left _ _ hlt
    · have h3 : size c = sizeList (c :: cs) := by omega
      rw [h3]
      exact Prod.Lex.right _ (by omega)
  · apply Prod.Lex.left
    have := size_pos c
    simp only [sizeList]
    omega

end

/-- The final navigable node has no next node. -/
theorem next_node_getLast_navAt (root : NTree) :
    ∀ x, (navAt root []).getLast? = some x → next_node root x = none := by
  intro x hx
  rw [navAt_getLast] at hx
  have hx : last_descendant [] root = x := by simpa using hx
  subst hx
  obtain ⟨⟨m, hm, hflag⟩, hup⟩ := last_descendant_spec root root [] rfl
  rw [next_node_at hm]
  have hcond : (m.expanded && !m.children.isEmpty) = false := by
    rcases hflag with hf | hf <;> simp [hf]
  rw [hcond]
  simp only [Bool.false_eq_true, if_false]
  rw [hup]
  rfl

/-- Iterating `next_node` from the root enumerates exactly the navigable
preorder. -/
theorem nextSeq_eq_navAt (root : NTree) : nextSeq root = navAt root [] := by
  apply nextChain_of_chain root (navAt root []) [] (size root)
  · exact navAt_head root []
  · exact chain_navAt root root [] rfl
  · exact next_node_getLast_navAt root
  · have := navAt_length root []
    omega

/-! ### `find_cursor` computes an index into the navigable id sequence -/

/-- Index of the first occurrence of `tgt`. -/
def idxOf? (tgt : Nat) : List Nat → Option Nat
  | [] => none
  | a :: l => if a = tgt then some 0 else (idxOf? tgt l).map (· + 1)

theorem idxOf?_eq_none_iff (tgt : Nat) (l : List Nat) :
    idxOf? tgt l = none ↔ tgt ∉ l := by
  induction l with
  | nil => simp [idxOf?]
  | cons a l ih =>
    rw [idxOf?]
    by_cases ha : a = tgt
    · simp [ha]
    · simp only [if_neg ha, List.mem_cons]
      rw [Option.map_eq_none']
      rw [ih]
      constructor
      · intro h hmem
        rcases hmem with h2 | h2
        · exact ha h2.symm
        · exact h h2
      · intro h h2
        exact h (Or.inr h2)

theorem idxOf?_getElem {tgt : Nat} {l : List Nat} {k : Nat}
    (h : idxOf? tgt l = some k) : l[k]? = some tgt := by
  induction l generalizing k with
  | nil => simp [idxOf?] at h
  | cons a l ih =>
    rw [idxOf?] at h
    by_cases ha : a = tgt
    · rw [if_pos ha] at h
      cases h
      simpa using ha
    · rw [if_neg ha] at h
      rcases Option.map_eq_some'.mp h with ⟨k', hk', rfl⟩
      simpa using ih hk'

theorem idxOf?_of_nodup {tgt : Nat} {l : List Nat} {k : Nat} (hnd : l.Nodup)
    (h : l[k]? = some tgt) : idxOf? tgt l = some k := by
  induction l generalizing k with
  | nil => simp at h
  | cons a l ih =>
    cases k with
    | zero =>
      have ha : a = tgt := by simpa using h
      rw [idxOf?, if_pos ha]
    | succ k =>
      have h : l[k]? = some tgt := by simpa using h
      have ha : a ≠ tgt := by
        intro hcontra
        subst hcontra
        exact (List.nodup_cons.mp hnd).1 (List.getElem?_mem h)
      rw [idxOf?, if_neg ha, ih (List.nodup_cons.mp hnd).2 h]
      rfl

/-- Ids contributed by the iterators held on the stack, in visit order. -/
def stackIds : List (List NTree) → List Nat
  | [] => []
  | l :: s => navIdsL l ++ stackIds s

theorem navIds_eq (t : NTree) :
    navIds t = t.id :: (if t.expanded then navIdsL t.children else []) := by
  cases t with
  | mk i l d ld e em cs => simp [navIds]

/-- The stack loop of `find_cursor` finds the index of the target id in the
id sequence still to be visited, offset by the lines already counted. -/
theorem findCursorAux_eq (tgt : Nat) (line : Nat) (stack : List (List NTree)) :
    findCursorAux tgt line stack = (idxOf? tgt (stackIds stack)).map (line + ·) := by
  match stack with
  | [] => simp [findCursorAux, stackIds, idxOf?]
  | [] :: stack =>
    rw [findCursorAux, findCursorAux_eq tgt line stack]
    rw [show stackIds ([] :: stack) = stackIds stack by simp [stackIds, navIdsL]]
  | (node :: rest) :: stack =>
    rw [findCursorAux]
    have hids : stackIds ((node :: rest) :: stack)
        = node.id :: ((if node.expanded then navIdsL node.children else [])
            ++ (navIdsL rest ++ stackIds stack)) := by
      simp [stackIds, navIdsL, navIds_eq]
    rw [hids]
    by_cases hid : node.id = tgt
    · rw [if_pos hid, idxOf?, if_pos hid]
      simp
    · rw [if_neg hid, idxOf?, if_neg hid]
      by_cases hpush : (!node.children.isEmpty && node.expanded) = true
      · rw [if_pos hpush]
        rw [findCursorAux_eq tgt (line + 1) (node.children :: rest :: stack)]
        have hexp : node.expanded = true := (Bool.and_eq_true_iff.mp hpush).2
        rw [if_pos hexp]
        rw [show stackIds (node.children :: rest :: stack)
            = navIdsL node.children ++ (navIdsL rest ++ stackIds stack) by
          simp [stackIds]]
        cases idxOf? tgt (navIdsL node.children ++ (navIdsL rest ++ stackIds stack)) with
        | none => simp
        | some k =>
          simp only [Option.map_some']
          congr 1
          omega
      · rw [if_neg hpush]
        rw [findCursorAux_eq tgt (line + 1) (rest :: stack)]
        have hf : (!node.children.isEmpty && node.expanded) = false := by
          simpa using hpush
        have hX : (if node.expanded then navIdsL node.children else []) = [] := by
          rcases Bool.and_eq_false_iff.mp hf with h1 | h1
          · have hce : node.children = [] := by
              simpa [List.isEmpty_iff] using h1
            rw [hce]
            cases node.expanded <;> simp [navIdsL]
          · rw [h1]
            simp
        rw [hX]
        rw [show stackIds (rest :: stack) = navIdsL rest ++ stackIds stack by
          simp [stackIds]]
        simp only [List.nil_append]
        cases idxOf? tgt (navIdsL rest ++ stackIds stack) with
        | none => simp
        | some k =>
          simp only [Option.map_some']
          congr 1
          omega
termination_by (stackSize stack, stack.length)
decreasing_by
  · have h : stackSize ([] :: stack) = stackSize stack := by
      simp only [stackSize, sizeList]; omega
    rw [h]
    exact Prod.Lex.right _ (by simp)
  · apply Prod.Lex.left
    have hc : sizeList node.children + 1 = size node := by
      cases node with
      | mk i l d ld e em cs => simp only [NTree.children_mk, size]; omega
    simp only [stackSize, sizeList]
    omega
  · apply Prod.Lex.left
    have := size_pos node
    simp only [stackSize, sizeList]
    omega

/-- Function `find_cursor` is the index of the cursor id in the navigable id walk. -/
theorem find_cursor_eq (c : TreeControl) :
    find_cursor c = idxOf? c.cursor (navIds c.tree) := by
  rw [find_cursor, findCursorAux_eq]
  rw [show stackIds [[c.tree]] = navIds c.tree by simp [stackIds, navIdsL]]
  cases idxOf? c.cursor (navIds c.tree) with
  | none => simp
  | some k => simp

theorem lt_length_of_getElem? {α : Type} {l : List α} {j : Nat} {c : α}
    (h : l[j]? = some c) : j < l.length := by
  by_contra hc
  rw [List.getElem?_eq_none (by omega)] at h
  cases h

/-- The id of the node addressed by a path (0 when the path is invalid; only
used on valid paths). -/
def idAtD (root : NTree) (q : Path) : Nat :=
  match getR root q with
  | some n => n.id
  | none => 0

mutual

theorem navIds_eq_map (root t : NTree) (p : Path) (h : getR root p = some t) :
    navIds t = (navAt t p).map (idAtD root) := by
  rw [navIds_eq, navAt_eq, List.map_cons]
  congr 1
  · rw [idAtD, h]
  · by_cases he : t.expanded
    · rw [if_pos he, if_pos he]
      exact navIdsL_eq_map root t p h t.children 0 (by intro j c hj; simpa using hj)
    · rw [if_neg he, if_neg he]
      rfl
termination_by (size t, 0)
decreasing_by
  apply Prod.Lex.left
  exact sizeList_children_lt t

theorem navIdsL_eq_map (root par : NTree) (p : Path) (h : getR root p = some par)
    (cs : List NTree) (i : Nat)
    (hcs : ∀ j c, cs[j]? = some c → par.children[i + j]? = some c) :
    navIdsL cs = (navChildren cs i p).map (idAtD root) := by
  match cs, hcs with
  | [], _ => simp [navIdsL, navChildren]
  | c :: cs, hcs =>
    rw [navIdsL, navChildren, List.map_append]
    congr 1
    · exact navIds_eq_map root c (i :: p)
        (by rw [getR_cons, h, Option.some_bind]; simpa using hcs 0 c (by simp))
    · exact navIdsL_eq_map root par p h cs (i + 1)
        (by
          intro j c' hj
          have := hcs (j + 1) c' (by simpa using hj)
          rwa [show i + (j + 1) = i + 1 + j by omega] at this)
termination_by (sizeList cs, 1)
decreasing_by
  · have h2 : size c ≤ sizeList (c :: cs) := by simp only [sizeList]; omega
    rcases Nat.lt_or_ge (size c) (sizeList (c :: cs)) with hlt | hge
    · exact Prod.Lex.left _ _ hlt
    · have h3 : size c = sizeList (c :: cs) := by omega
      rw [h3]
      exact Prod.Lex.right _ (by omega)
  · apply Prod.Lex.left
    have := size_pos c
    simp only [sizeList]
    omega

end

theorem mem_navChildren {q : Path} :
    ∀ (cs : List NTree) (i : Nat) (p : Path),
      q ∈ navChildren cs i p ↔ ∃ j c, cs[j]? = some c ∧ q ∈ navAt c ((i + j) :: p) := by
  intro cs
  induction cs with
  | nil => intro i p; simp [navChildren]
  | cons c cs ih =>
    intro i p
    rw [navChildren, List.mem_append, ih (i + 1) p]
    constructor
    · rintro (hq | ⟨j, c', hj, hq⟩)
      · exact ⟨0, c, by simp, by simpa using hq⟩
      · exact ⟨j + 1, c', by simpa using hj,
          by rwa [show i + (j + 1) = i + 1 + j by omega]⟩
    · rintro ⟨j, c', hj, hq⟩
      cases j with
      | zero =>
        have hc : c = c' := by simpa using hj
        subst hc
        exact Or.inl (by simpa using hq)
      | succ j =>
        refine Or.inr ⟨j, c', by simpa using hj, ?_⟩
        rwa [show i + 1 + j = i + (j + 1) by omega]

/-- Membership in the navigable preorder of the subtree at `p` is exactly:
navigable, and inside that subtree. -/
theorem mem_navAt_iff (root t : NTree) (p q : Path) (hg : getR root p = some t)
    (hnav : navigableR root p = true) :
    q ∈ navAt t p ↔ (navigableR root q = true ∧ p <:+ q) := by
  constructor
  · intro hq
    rw [navAt_eq] at hq
    rcases List.mem_cons.mp hq with hq | hq
    · subst hq
      exact ⟨hnav, List.suffix_refl _⟩
    · by_cases he : t.expanded
      · rw [if_pos he] at hq
        rcases (mem_navChildren t.children 0 p).mp hq with ⟨j, c, hj, hq'⟩
        rw [Nat.zero_add] at hq'
        have hc : getR root (j :: p) = some c := by
          rw [getR_cons, hg, Option.some_bind]
          exact hj
        have hnavj : navigableR root (j :: p) = true := by
          rw [navigableR, hg]
          simp only [Bool.and_eq_true, decide_eq_true_eq]
          exact ⟨hnav, he, lt_length_of_getElem? hj⟩
        obtain ⟨hq1, hsuf⟩ := (mem_navAt_iff root c (j :: p) q hc hnavj).mp hq'
        exact ⟨hq1, List.IsSuffix.trans ⟨[j], rfl⟩ hsuf⟩
      · rw [if_neg he] at hq
        simp at hq
  · rintro ⟨hq, hsuf⟩
    obtain ⟨ext, hext⟩ := hsuf
    subst hext
    rcases List.eq_nil_or_concat ext with rfl | ⟨ext', j, hext'⟩
    · rw [navAt_eq]
      simp
    · subst hext'
      rw [List.concat_eq_append, List.append_assoc] at hq ⊢
      have hjp : navigableR root ([j] ++ p) = true := navigableR_suffix hq
      rw [List.singleton_append] at hjp hq ⊢
      have hjp' := hjp
      rw [navigableR, hg] at hjp'
      simp only [Bool.and_eq_true, decide_eq_true_eq] at hjp'
      obtain ⟨-, he, hlt⟩ := hjp'
      have hc : getR root (j :: p) = some t.children[j] := by
        rw [getR_cons, hg, Option.some_bind]
        exact List.getElem?_eq_getElem hlt
      rw [navAt_eq]
      apply List.mem_cons_of_mem
      rw [if_pos he]
      apply (mem_navChildren t.children 0 p).mpr
      refine ⟨j, t.children[j], List.getElem?_eq_getElem hlt, ?_⟩
      rw [Nat.zero_add]
      exact (mem_navAt_iff root t.children[j] (j :: p) (ext' ++ j :: p) hc hjp).mpr
        ⟨hq, ⟨ext', rfl⟩⟩
termination_by size t
decreasing_by
  · exact size_child_lt (List.getElem?_mem hj)
  · exact size_child_lt (List.getElem_mem hlt)

/-! ### Unique ids address unique nodes -/

theorem getR_snoc (root : NTree) (ext : Path) (j : Nat) :
    getR root (ext ++ [j]) = (root.children[j]?).bind fun c => getR c ext := by
  rw [getR_append]
  simp [getR_cons]

theorem allIds_sublist_of_getElem {cs : List NTree} :
    ∀ {j : Nat} {c : NTree}, cs[j]? = some c → List.Sublist (allIds c) (allIdsL cs) := by
  induction cs with
  | nil => intro j c h; simp at h
  | cons c0 cs ih =>
    intro j c h
    cases j with
    | zero =>
      have hc : c0 = c := by simpa using h
      subst hc
      rw [allIdsL_cons]
      exact List.sublist_append_left _ _
    | succ j =>
      rw [allIdsL_cons]
      exact (ih (by simpa using h)).trans (List.sublist_append_right _ _)

theorem id_mem_allIds_of_getR {t n : NTree} {p : Path} (h : getR t p = some n) :
    n.id ∈ allIds t :=
  List.mem_map_of_mem _ (mem_allNodes_of_getR h)

theorem allIds_disjoint_of_ne {cs : List NTree} :
    ∀ {j1 j2 : Nat} {c1 c2 : NTree}, (allIdsL cs).Nodup →
      cs[j1]? = some c1 → cs[j2]? = some c2 → j1 ≠ j2 →
      ∀ {a : Nat}, a ∈ allIds c1 → a ∈ allIds c2 → False := by
  induction cs with
  | nil => intro j1 j2 c1 c2 _ h1; simp at h1
  | cons c cs ih =>
    intro j1 j2 c1 c2 hnd h1 h2 hne a ha1 ha2
    rw [allIdsL_cons] at hnd
    have hdisj := List.disjoint_of_nodup_append hnd
    cases j1 with
    | zero =>
      have hc : c = c1 := by simpa using h1
      subst hc
      cases j2 with
      | zero => exact hne rfl
      | succ j2 =>
        have h2 : cs[j2]? = some c2 := by simpa using h2
        exact hdisj ha1 ((allIds_sublist_of_getElem h2).subset ha2)
    | succ j1 =>
      have h1 : cs[j1]? = some c1 := by simpa using h1
      cases j2 with
      | zero =>
        have hc : c = c2 := by simpa using h2
        subst hc
        exact hdisj ha2 ((allIds_sublist_of_getElem h1).subset ha1)
      | succ j2 =>
        have h2 : cs[j2]? = some c2 := by simpa using h2
        exact ih hnd.of_append_right h1 h2 (fun hc => hne (by omega)) ha1 ha2

/-- With globally unique ids, two paths addressing nodes with the same id are
the same path. -/
theorem getR_id_inj (t : NTree) (hnd : (allIds t).Nodup) (p q : Path)
    (n m : NTree) (hp : getR t p = some n) (hq : getR t q = some m)
    (hid : n.id = m.id) : p = q := by
  have hconsnd := hnd
  rw [allIds_eq_cons] at hconsnd
  obtain ⟨hnotmem, hndL⟩ := List.nodup_cons.mp hconsnd
  rcases List.eq_nil_or_concat p with rfl | ⟨p', j1, hp'⟩
  · have hn : t = n := by simpa using hp
    subst hn
    rcases List.eq_nil_or_concat q with rfl | ⟨q', j2, hq'⟩
    · rfl
    · subst hq'
      rw [List.concat_eq_append, getR_snoc] at hq
      rcases hc2 : t.children[j2]? with _ | c2 <;> rw [hc2] at hq
      · cases hq
      · rw [Option.some_bind] at hq
        exfalso
        apply hnotmem
        exact (allIds_sublist_of_getElem hc2).subset
          (by rw [hid]; exact id_mem_allIds_of_getR hq)
  · subst hp'
    rcases List.eq_nil_or_concat q with rfl | ⟨q', j2, hq'⟩
    · have hm : t = m := by simpa using hq
      subst hm
      rw [List.concat_eq_append, getR_snoc] at hp
      rcases hc1 : t.children[j1]? with _ | c1 <;> rw [hc1] at hp
      · cases hp
      · rw [Option.some_bind] at hp
        exfalso
        apply hnotmem
        exact (allIds_sublist_of_getElem hc1).subset
          (by rw [← hid]; exact id_mem_allIds_of_getR hp)
    · subst hq'
      rw [List.concat_eq_append, getR_snoc] at hp hq
      rcases hc1 : t.children[j1]? with _ | c1 <;> rw [hc1] at hp
      · cases hp
      rcases hc2 : t.children[j2]? with _ | c2 <;> rw [hc2] at hq
      · cases hq
      rw [Option.some_bind] at hp
      rw [Option.some_bind] at hq
      by_cases hj : j1 = j2
      · subst hj
        have hc : c1 = c2 := by rw [hc1] at hc2; exact Option.some.inj hc2
        subst hc
        have hrec := getR_id_inj c1
          ((allIds_sublist_of_getElem hc1).nodup hndL) p' q' n m hp hq hid
        rw [List.concat_eq_append, List.concat_eq_append, hrec]
      · exfalso
        exact allIds_disjoint_of_ne hndL hc1 hc2 hj
          (id_mem_allIds_of_getR hp)
          (by rw [hid]; exact id_mem_allIds_of_getR hq)
termination_by size t
decreasing_by
  exact size_child_lt (List.getElem?_mem hc1)

mutual

theorem navIds_sublist (t : NTree) : List.Sublist (navIds t) (allIds t) := by
  rw [navIds_eq, allIds_eq_cons]
  apply List.Sublist.cons₂
  by_cases he : t.expanded
  · rw [if_pos he]
    exact navIdsL_sublist t.children
  · rw [if_neg he]
    exact List.nil_sublist _
termination_by (size t, 0)
decreasing_by
  apply Prod.Lex.left
  exact sizeList_children_lt t

theorem navIdsL_sublist (cs : List NTree) : List.Sublist (navIdsL cs) (allIdsL cs) := by
  match cs with
  | [] => simp [navIdsL, allIdsL, allNodesL]
  | c :: cs =>
    rw [navIdsL, allIdsL_cons]
    exact List.Sublist.append (navIds_sublist c) (navIdsL_sublist cs)
termination_by (sizeList cs, 1)
decreasing_by
  · have h2 : size c ≤ sizeList (c :: cs) := by simp only [sizeList]; omega
    rcases Nat.lt_or_ge (size c) (sizeList (c :: cs)) with hlt | hge
    · exact Prod.Lex.left _ _ hlt
    · have h3 : size c = sizeList (c :: cs) := by omega
      rw [h3]
      exact Prod.Lex.right _ (by omega)
  · apply Prod.Lex.left
    have := size_pos c
    simp only [sizeList]
    omega

end

/-! ### Inversion lemmas for the control operations -/

theorem add_ok_inv {c : TreeControl} {pid : Nat} {l : String} {d : NodeData}
    {c1 : TreeControl} {r : Option Nat}
    (h : TreeControl.add c pid l d = .ok (c1, r)) :
    ∃ p, findPath c.tree pid = some p ∧ c1 = addCore c p l d ∧ r = none := by
  rw [TreeControl.add] at h
  split at h
  · cases h
  · rename_i p heq
    cases h
    exact ⟨p, heq, rfl, rfl⟩

theorem add_ok_node_id {c : TreeControl} {pid : Nat} {l : String} {d : NodeData}
    {c1 : TreeControl} {r : Option Nat}
    (h : TreeControl.add c pid l d = .ok (c1, r)) :
    c1.node_id = c.node_id + 1 := by
  obtain ⟨p, -, rfl, -⟩ := add_ok_inv h
  rfl

theorem tree_node_add_ok_inv {c : TreeControl} {pid : Nat} {l : String}
    {d : NodeData} {c1 : TreeControl} {r : Option Nat}
    (h : tree_node_add c pid l d = .ok (c1, r)) :
    ∃ p, findPath c.tree pid = some p ∧
      c1 = { addCore c p l d with
               tree := updateAtR (addCore c p l d).tree p fun n => n.withEmpty false } ∧
      r = none := by
  rw [tree_node_add] at h
  split at h
  · cases h
  · rename_i p heq
    cases h
    exact ⟨p, heq, rfl, rfl⟩

theorem cursor_down_tree {c c1 : TreeControl} (h : cursor_down c = .ok c1) :
    c1.tree = c.tree := by
  rw [cursor_down] at h
  split at h
  · cases h; rfl
  · split at h
    · cases h
    · split at h
      · split at h
        · cases h; rfl
        · cases h
      · cases h; rfl

theorem cursor_up_tree {c c1 : TreeControl} (h : cursor_up c = .ok c1) :
    c1.tree = c.tree := by
  rw [cursor_up] at h
  split at h
  · cases h; rfl
  · split at h
    · cases h
    · split at h
      · split at h
        · cases h; rfl
        · cases h
      · cases h; rfl

theorem key_end_tree {c c1 : TreeControl} (h : key_end c = .ok c1) :
    c1.tree = c.tree := by
  rw [key_end] at h
  split at h
  · cases h
  · split at h
    · cases h
    · split at h
      · cases h
      · cases h; rfl

/-! ### Claim theorems -/

/-- C2: for every node reachable in navigable order whose `previous_node` is
some node `q`, `next_node q` returns the original node: the two traversal
directions are inverse on the navigable sequence. -/
theorem C2_prev_next_inverse (root : NTree) (p q : Path)
    (hnav : navigableR root p = true)
    (hprev : previous_node root p = some q) :
    next_node root q = some p := by
  rcases p with _ | ⟨i, pq⟩
  · simp [previous_node, previous_sibling] at hprev
  · have hnav' := hnav
    rw [navigableR] at hnav'
    simp only [Bool.and_eq_true] at hnav'
    obtain ⟨hnavq, hmatch⟩ := hnav'
    rcases hpar : getR root pq with _ | par
    · rw [hpar] at hmatch; simp at hmatch
    · rw [hpar] at hmatch
      simp only [Bool.and_eq_true, decide_eq_true_eq] at hmatch
      obtain ⟨he, hlt⟩ := hmatch
      have hne : par.children ≠ [] := List.ne_nil_of_length_pos (by omega)
      have hie : par.children.isEmpty = false := by
        rcases hc : par.children with _ | ⟨x, xs⟩
        · exact absurd hc hne
        · rfl
      by_cases hi : i = 0
      · subst hi
        have hp0 : previous_node root (0 :: pq) = some pq := by
          simp [previous_node, previous_sibling]
        rw [hp0] at hprev
        have hq : pq = q := by simpa using hprev
        subst hq
        rw [next_node_at hpar]
        rw [if_pos (by simp [he, hie])]
      · have hsib : getR root ((i - 1) :: pq) = some par.children[i - 1] := by
          rw [getR_cons, hpar, Option.some_bind]
          exact List.getElem?_eq_getElem (by omega)
        have hps : previous_sibling (i :: pq) = some ((i - 1) :: pq) := by
          rw [previous_sibling, if_neg hi]
        have hpn : previous_node root (i :: pq)
            = some (last_descendant ((i - 1) :: pq) par.children[i - 1]) := by
          simp only [previous_node, hps, hsib]
        rw [hpn] at hprev
        have hq : last_descendant ((i - 1) :: pq) par.children[i - 1] = q := by
          simpa using hprev
        subst hq
        obtain ⟨⟨m, hm, hflag⟩, hup⟩ :=
          last_descendant_spec root par.children[i - 1] ((i - 1) :: pq) hsib
        rw [next_node_at hm]
        have hcond : (m.expanded && !m.children.isEmpty) = false := by
          rcases hflag with hf | hf <;> simp [hf]
        rw [hcond]
        simp only [Bool.false_eq_true, if_false]
        rw [hup, upNext]
        have hi1 : i - 1 + 1 = i := by omega
        rw [next_sibling_cons hpar (i - 1), hi1]
        rw [if_pos hlt]

/-- C2 witness: a concrete root with two collapsed children; the previous
node of the second child is the first, whose next node is the second. -/
theorem C2_witness :
    navigableR (NTree.mk 0 "r" 0 false true false
        [NTree.mk 1 "a" 0 false false false [], NTree.mk 2 "b" 0 false false false []])
      [1] = true ∧
    previous_node (NTree.mk 0 "r" 0 false true false
        [NTree.mk 1 "a" 0 false false false [], NTree.mk 2 "b" 0 false false false []])
      [1] = some [0] ∧
    next_node (NTree.mk 0 "r" 0 false true false
        [NTree.mk 1 "a" 0 false false false [], NTree.mk 2 "b" 0 false false false []])
      [0] = some [1] := by
  have hprev : previous_node (NTree.mk 0 "r" 0 false true false
      [NTree.mk 1 "a" 0 false false false [], NTree.mk 2 "b" 0 false false false []])
      [1] = some [0] := by
    simp [previous_node, previous_sibling, last_descendant, getR]
  exact ⟨by decide, hprev, C2_prev_next_inverse _ [1] [0] (by decide) hprev⟩

/-- C5: with the cursor shown, `cursor_down` at the last node of the
navigable order is a no-op (every attribute, in particular `cursor` and
`cursor_line`, unchanged), and `cursor_up` at the root likewise. -/
theorem C5_boundary_noop (c : TreeControl) (hshow : c.show_cursor = true) :
    (∀ p, findPath c.tree c.cursor = some p →
      (navAt c.tree []).getLast? = some p → cursor_down c = .ok c) ∧
    (findPath c.tree c.cursor = some [] → cursor_up c = .ok c) := by
  constructor
  · intro p hp hlast
    have hnn : next_node c.tree p = none := next_node_getLast_navAt c.tree p hlast
    simp [cursor_down, hshow, hp, hnn]
  · intro hp
    simp [cursor_up, hshow, hp, previous_node, previous_sibling]

/-- C5 witness: cursor on the only child (the last navigable node) for the
down half; cursor on the root for the up half. -/
theorem C5_witness :
    cursor_down
        { node_id := 1
          tree := NTree.mk 0 "r" 0 false true false [NTree.mk 1 "a" 0 false false false []]
          cursor := 1, cursor_line := 1, show_cursor := true, hover_node := none }
      = .ok
        { node_id := 1
          tree := NTree.mk 0 "r" 0 false true false [NTree.mk 1 "a" 0 false false false []]
          cursor := 1, cursor_line := 1, show_cursor := true, hover_node := none } ∧
    cursor_up
        { node_id := 1
          tree := NTree.mk 0 "r" 0 false true false [NTree.mk 1 "a" 0 false false false []]
          cursor := 0, cursor_line := 0, show_cursor := true, hover_node := none }
      = .ok
        { node_id := 1
          tree := NTree.mk 0 "r" 0 false true false [NTree.mk 1 "a" 0 false false false []]
          cursor := 0, cursor_line := 0, show_cursor := true, hover_node := none } :=
  ⟨(C5_boundary_noop _ rfl).1 [0] (by decide) (by decide),
   (C5_boundary_noop _ rfl).2 (by decide)⟩

/-- C6: when `show_cursor` is false, one call to `cursor_down` or
`cursor_up` only sets it true; `cursor` and `cursor_line` are untouched. -/
theorem C6_first_call_reveals (c : TreeControl) (hshow : c.show_cursor = false) :
    cursor_down c = .ok { c with show_cursor := true } ∧
    cursor_up c = .ok { c with show_cursor := true } := by
  refine ⟨?_, ?_⟩ <;> simp [cursor_down, cursor_up, hshow]

/-- C6 witness: a fresh control. -/
theorem C6_witness :
    cursor_down (mkControl "r" 0) = .ok { mkControl "r" 0 with show_cursor := true } ∧
    cursor_up (mkControl "r" 0) = .ok { mkControl "r" 0 with show_cursor := true } :=
  C6_first_call_reveals (mkControl "r" 0) rfl

/-- Each successful `add` allocates ids consecutively from the current
counter; failures allocate nothing. -/
theorem runAdds_ids (ops : List (Nat × String × NodeData)) :
    ∀ c : TreeControl, ∃ k,
      (runAdds c ops).2 = List.range' (c.node_id + 1) k ∧
      (runAdds c ops).1.node_id = c.node_id + k := by
  induction ops with
  | nil => intro c; exact ⟨0, rfl, rfl⟩
  | cons op ops ih =>
    intro c
    obtain ⟨pid, l, d⟩ := op
    rcases ha : TreeControl.add c pid l d with e | ⟨c1, r⟩
    · obtain ⟨k, hk, hnode⟩ := ih c
      refine ⟨k, ?_, ?_⟩
      · rw [runAdds]
        simp only [ha]
        exact hk
      · rw [runAdds]
        simp only [ha]
        exact hnode
    · obtain ⟨k, hk, hnode⟩ := ih c1
      have hnid : c1.node_id = c.node_id + 1 := add_ok_node_id ha
      rcases hr : runAdds c1 ops with ⟨cf, ids⟩
      rw [hr] at hk hnode
      refine ⟨k + 1, ?_, ?_⟩
      · simp only [runAdds, ha, hr]
        rw [List.range'_succ]
        rw [show ids = List.range' (c1.node_id + 1) k from hk, hnid]
      · simp only [runAdds, ha, hr]
        have hcf : cf.node_id = c1.node_id + k := hnode
        show cf.node_id = c.node_id + (k + 1)
        omega

/-- C9: over any sequence of `add` calls on a fresh control, the allocated
ids form `[1, 2, ..., k]`: strictly increasing from 1, no repeats, and the
root id 0 never reused. -/
theorem C9_ids_strictly_increasing (label : String) (data : NodeData)
    (ops : List (Nat × String × NodeData)) :
    ∃ k, (runAdds (mkControl label data) ops).2 = List.range' 1 k ∧
      List.Chain' (· < ·) (runAdds (mkControl label data) ops).2 ∧
      (runAdds (mkControl label data) ops).2.Nodup ∧
      ((runAdds (mkControl label data) ops).2 ≠ [] →
        (runAdds (mkControl label data) ops).2.head? = some 1) ∧
      0 ∉ (runAdds (mkControl label data) ops).2 := by
  obtain ⟨k, hk, -⟩ := runAdds_ids ops (mkControl label data)
  rw [show (mkControl label data).node_id = 0 from rfl] at hk
  refine ⟨k, hk, ?_, ?_, ?_, ?_⟩
  · rw [hk]
    exact (List.pairwise_lt_range' 1 k 1 (by omega)).chain'
  · rw [hk]
    exact List.nodup_range' 1 k 1
  · intro hne
    rw [hk] at hne ⊢
    cases k with
    | zero => simp at hne
    | succ k => rw [List.range'_succ]; rfl
  · rw [hk]
    intro hmem
    have := List.mem_range'_1.mp hmem
    omega

/-- C9 witness: three adds, one of which fails (`NotFound` parent 5); the
successful ones get ids 1 and 2. -/
theorem C9_witness :
    ∃ k, (runAdds (mkControl "r" 0) [(0, "a", 0), (5, "x", 0), (0, "b", 0)]).2
        = List.range' 1 k ∧
      List.Chain' (· < ·)
        (runAdds (mkControl "r" 0) [(0, "a", 0), (5, "x", 0), (0, "b", 0)]).2 ∧
      (runAdds (mkControl "r" 0) [(0, "a", 0), (5, "x", 0), (0, "b", 0)]).2.Nodup ∧
      ((runAdds (mkControl "r" 0) [(0, "a", 0), (5, "x", 0), (0, "b", 0)]).2 ≠ [] →
        (runAdds (mkControl "r" 0)
          [(0, "a", 0), (5, "x", 0), (0, "b", 0)]).2.head? = some 1) ∧
      0 ∉ (runAdds (mkControl "r" 0) [(0, "a", 0), (5, "x", 0), (0, "b", 0)]).2 :=
  C9_ids_strictly_increasing "r" 0 [(0, "a", 0), (5, "x", 0), (0, "b", 0)]

/-- C7: with the root registered under id 0, `key_end` fails exactly when
the root has no children; otherwise it moves `cursor` to the id of the
root's last child and recomputes `cursor_line` by `find_cursor() or 0`
(`None` and `0` both give 0). -/
theorem C7_key_end (c : TreeControl) (hroot : c.tree.id = 0) :
    (key_end c = .error () ↔ c.tree.children = []) ∧
    (∀ lc, c.tree.children.getLast? = some lc →
      key_end c = .ok { c with
        cursor := lc.id
        cursor_line := ((find_cursor { c with cursor := lc.id }).getD 0 : Nat) }) := by
  have hfp : findPath c.tree 0 = some [] := by
    rw [findPath]
    rcases htree : c.tree with ⟨i, l, d, ld, e, em, cs⟩
    rw [htree] at hroot
    rw [findPathA, if_pos (by simpa using hroot)]
  have hok : ∀ lc, c.tree.children.getLast? = some lc →
      key_end c = .ok { c with
        cursor := lc.id
        cursor_line := ((find_cursor { c with cursor := lc.id }).getD 0 : Nat) } := by
    intro lc hlc
    simp only [key_end, hfp, getR_nil, hlc]
  refine ⟨⟨?_, ?_⟩, hok⟩
  · intro herr
    rcases hgl : c.tree.children.getLast? with _ | lc
    · exact List.getLast?_eq_none_iff.mp hgl
    · rw [hok lc hgl] at herr
      cases herr
  · intro hnil
    simp only [key_end, hfp, getR_nil, hnil, List.getLast?_nil]

/-- C7 witness: a root with one child; `key_end` selects it. -/
theorem C7_witness :
    key_end
        { node_id := 1
          tree := NTree.mk 0 "r" 0 false true false [NTree.mk 1 "a" 0 false false false []]
          cursor := 0, cursor_line := 0, show_cursor := true, hover_node := none }
      = .ok
        { node_id := 1
          tree := NTree.mk 0 "r" 0 false true false [NTree.mk 1 "a" 0 false false false []]
          cursor := 1
          cursor_line := ((find_cursor
            { node_id := 1
              tree := NTree.mk 0 "r" 0 false true false [NTree.mk 1 "a" 0 false false false []]
              cursor := 1, cursor_line := 0, show_cursor := true, hover_node := none }).getD 0 : Nat)
          show_cursor := true, hover_node := none } :=
  (C7_key_end
      { node_id := 1
        tree := NTree.mk 0 "r" 0 false true false [NTree.mk 1 "a" 0 false false false []]
        cursor := 0, cursor_line := 0, show_cursor := true, hover_node := none }
      rfl).2 (NTree.mk 1 "a" 0 false false false []) rfl

/-- C1 (amended): `tree_node_add` — the full `TreeNode.add` pathway through
`TreeControl.add` — fails with `NotFound` when the parent id is not
registered (nothing mutated); otherwise it bumps the id counter, appends
exactly one fresh child at the end of the parent's children, marks the
parent non-empty, places the child in the tree under the new id, leaves the
cursor state alone, and returns `None` (not the new id: the new id is
readable from the updated `node_id` counter). -/
theorem C1_add_semantics (c : TreeControl) (parent_id : Nat) (label : String)
    (data : NodeData) :
    (findPath c.tree parent_id = none →
      tree_node_add c parent_id label data = .error ()) ∧
    (∀ p, findPath c.tree parent_id = some p →
      ∃ parent, getR c.tree p = some parent ∧ parent.id = parent_id ∧
        ∃ c1, tree_node_add c parent_id label data = .ok (c1, none) ∧
          c1.node_id = c.node_id + 1 ∧
          getR c1.tree p = some (NTree.mk parent.id parent.label parent.data
            parent.loaded parent.expanded false
            (parent.children
              ++ [NTree.mk (c.node_id + 1) label data false false false []])) ∧
          NTree.mk (c.node_id + 1) label data false false false []
            ∈ allNodes c1.tree ∧
          c1.cursor = c.cursor ∧ c1.cursor_line = c.cursor_line ∧
          c1.show_cursor = c.show_cursor) := by
  constructor
  · intro h
    simp only [tree_node_add, h]
  · intro p hp
    obtain ⟨parent, hpar, hpid⟩ := by
      rw [findPath] at hp
      exact findPathA_sound c.tree c.tree parent_id [] rfl p hp
    refine ⟨parent, hpar, hpid, ?_⟩
    have hok : tree_node_add c parent_id label data
        = .ok ({ addCore c p label data with
            tree := updateAtR (addCore c p label data).tree p
              fun n => n.withEmpty false }, none) := by
      rw [tree_node_add, hp]
    have hgR : getR (updateAtR (addCore c p label data).tree p
          fun n => n.withEmpty false) p
        = some (NTree.mk parent.id parent.label parent.data
            parent.loaded parent.expanded false
            (parent.children
              ++ [NTree.mk (c.node_id + 1) label data false false false []])) := by
      rw [show (addCore c p label data).tree
          = updateAtR c.tree p
              (fun n => n.withChildren
                (n.children
                  ++ [NTree.mk (c.node_id + 1) label data false false false []]))
        from rfl]
      rw [getR_updateAtR_self, getR_updateAtR_self, hpar]
      simp only [Option.map_some']
      cases parent with
      | mk i l d ld e em cs => rfl
    refine ⟨_, hok, rfl, hgR, ?_, rfl, rfl, rfl⟩
    refine child_mem_allNodes _ (mem_allNodes_of_getR hgR) ?_
    simp

/-- C1 counterexample: at a concrete control, the add operation returns
`None` — not the newly allocated id 1 as the claim states. -/
theorem C1_counterexample :
    (tree_node_add (mkControl "root" 0) 0 "a" 0).toOption.map Prod.snd
        = some none ∧
    (tree_node_add (mkControl "root" 0) 0 "a" 0).toOption.map Prod.snd
        ≠ some (some 1) := by
  constructor
  · rfl
  · decide

/-- C1 witness: adding under the root of a fresh control. -/
theorem C1_witness :
    ∃ parent, getR (mkControl "root" 0).tree [] = some parent ∧ parent.id = 0 ∧
      ∃ c1, tree_node_add (mkControl "root" 0) 0 "a" 0 = .ok (c1, none) ∧
        c1.node_id = (mkControl "root" 0).node_id + 1 ∧
        getR c1.tree [] = some (NTree.mk parent.id parent.label parent.data
          parent.loaded parent.expanded false
          (parent.children
            ++ [NTree.mk ((mkControl "root" 0).node_id + 1) "a" 0 false false false []])) ∧
        NTree.mk ((mkControl "root" 0).node_id + 1) "a" 0 false false false []
          ∈ allNodes c1.tree ∧
        c1.cursor = (mkControl "root" 0).cursor ∧
        c1.cursor_line = (mkControl "root" 0).cursor_line ∧
        c1.show_cursor = (mkControl "root" 0).show_cursor :=
  (C1_add_semantics (mkControl "root" 0) 0 "a" 0).2 [] rfl

/-- C3: with the tree's ids unique (an invariant of every reachable state,
see C9), if the cursor's node is reachable in navigable order then
`find_cursor` returns the zero-based index of that node in the sequence
obtained by iterating `next_node` from the root; if the cursor's node sits
inside a collapsed ancestor, `find_cursor` returns none. -/
theorem C3_find_cursor (c : TreeControl) (hnd : (allIds c.tree).Nodup) :
    (∀ p n, getR c.tree p = some n → n.id = c.cursor →
        navigableR c.tree p = true →
        ∃ k, find_cursor c = some k ∧ (nextSeq c.tree)[k]? = some p) ∧
    (∀ p n, getR c.tree p = some n → n.id = c.cursor →
        navigableR c.tree p = false → find_cursor c = none) := by
  constructor
  · intro p n hg hid hnav
    have hmem : p ∈ navAt c.tree [] :=
      (mem_navAt_iff c.tree c.tree [] p rfl rfl).mpr ⟨hnav, List.nil_suffix⟩
    obtain ⟨k, hkmem⟩ : ∃ k, (navAt c.tree [])[k]? = some p := by
      obtain ⟨k, hklt, hk⟩ := List.getElem_of_mem hmem
      exact ⟨k, by rw [List.getElem?_eq_getElem hklt, hk]⟩
    have hknav : (navIds c.tree)[k]? = some c.cursor := by
      rw [navIds_eq_map c.tree c.tree [] rfl, List.getElem?_map, hkmem]
      simp only [Option.map_some', idAtD, hg, hid]
    refine ⟨k, ?_, ?_⟩
    · rw [find_cursor_eq]
      exact idxOf?_of_nodup ((navIds_sublist c.tree).nodup hnd) hknav
    · rw [nextSeq_eq_navAt]
      exact hkmem
  · intro p n hg hid hnav
    rcases hfc : find_cursor c with _ | k
    · rfl
    · exfalso
      rw [find_cursor_eq] at hfc
      have hkid : (navIds c.tree)[k]? = some c.cursor := idxOf?_getElem hfc
      rw [navIds_eq_map c.tree c.tree [] rfl, List.getElem?_map] at hkid
      rcases hq : (navAt c.tree [])[k]? with _ | q <;> rw [hq] at hkid
      · cases hkid
      · simp only [Option.map_some'] at hkid
        have hqmem : q ∈ navAt c.tree [] := List.getElem?_mem hq
        obtain ⟨hqnav, -⟩ := (mem_navAt_iff c.tree c.tree [] q rfl rfl).mp hqmem
        obtain ⟨m, hqg⟩ := Option.isSome_iff_exists.mp (isSome_getR_of_navigableR hqnav)
        have hmid : m.id = c.cursor := by
          rw [idAtD, hqg] at hkid
          simpa using hkid
        have hpq : p = q :=
          getR_id_inj c.tree hnd p q n m hg hqg (by rw [hid, hmid])
        rw [hpq, hqnav] at hnav
        cases hnav

/-- Concrete state for the C3 witness: root (id 0, expanded) with children
`a` (id 1) and collapsed `b` (id 2) hiding `x` (id 3); cursor on `a`. -/
def c3control : TreeControl :=
  { node_id := 3
    tree := NTree.mk 0 "r" 0 false true false
      [NTree.mk 1 "a" 0 false false false [],
       NTree.mk 2 "b" 0 false false false [NTree.mk 3 "x" 0 false false false []]]
    cursor := 1, cursor_line := 0, show_cursor := true, hover_node := none }

/-- C3 witness: the navigable cursor `a` is found at its `next_node` index;
with the cursor on the hidden `x`, `find_cursor` is none. -/
theorem C3_witness :
    (∃ k, find_cursor c3control = some k ∧ (nextSeq c3control.tree)[k]? = some [0]) ∧
    find_cursor { c3control with cursor := 3 } = none :=
  ⟨(C3_find_cursor c3control (by decide)).1 [0]
      (NTree.mk 1 "a" 0 false false false []) (by rfl) (by rfl) (by decide),
   (C3_find_cursor { c3control with cursor := 3 } (by decide)).2 [0, 1]
      (NTree.mk 3 "x" 0 false false false []) (by rfl) (by rfl) (by decide)⟩

/-! ### The concrete cursor scenario (C8) -/

/-- Runs `n` successive `cursor_down()` calls (a raising call, which cannot occur
in this scenario, would leave the state unchanged). -/
def cursorDownN : TreeControl → Nat → TreeControl
  | c, 0 => c
  | c, n + 1 =>
    cursorDownN
      (match cursor_down c with
        | .ok c1 => c1
        | .error _ => c) n

/-- The C8 tree: root→{A, B}, A→{A1, A2} (ids 1, 2, 3, 4 in add order),
root and A expanded, on a freshly constructed control. -/
def c8start : TreeControl :=
  expandNode
    (expandNode
      (runAdds (mkControl "root" 0)
        [(0, "A", 0), (0, "B", 0), (1, "A1", 0), (1, "A2", 0)]).1
      0 true)
    1 true

/-- The second phase of the scenario: after the five calls, collapse A and
reset the cursor to the root with `key_home`. -/
def c8collapsed : TreeControl := key_home (expandNode (cursorDownN c8start 5) 1 false)

/-- C8 counterexample: on the freshly constructed control `show_cursor` is
false, so the first of the four `cursor_down()` calls only reveals the
cursor and does not move it: after four calls the cursor is at A2 (id 4)
with `cursor_line` 3 — not at B (id 2) with `cursor_line` 4 as claimed. -/
theorem C8_counterexample :
    ((cursorDownN c8start 4).cursor, (cursorDownN c8start 4).cursor_line) = (4, 3) ∧
    ((cursorDownN c8start 4).cursor, (cursorDownN c8start 4).cursor_line) ≠ (2, 4) := by
  constructor
  · rfl
  · decide

/-- C8 (amended): the first `cursor_down()` call on the fresh control only
sets `show_cursor`; the following four calls visit A, A1, A2, B (ids
1, 3, 4, 2) with `cursor_line` 1, 2, 3, 4; after collapsing A and resetting
to the root, two further calls visit A then B with `cursor_line` 1, 2. -/
theorem C8_scenario :
    ((cursorDownN c8start 1).cursor, (cursorDownN c8start 1).cursor_line,
        (cursorDownN c8start 1).show_cursor) = (0, 0, true) ∧
    ((cursorDownN c8start 2).cursor, (cursorDownN c8start 2).cursor_line) = (1, 1) ∧
    ((cursorDownN c8start 3).cursor, (cursorDownN c8start 3).cursor_line) = (3, 2) ∧
    ((cursorDownN c8start 4).cursor, (cursorDownN c8start 4).cursor_line) = (4, 3) ∧
    ((cursorDownN c8start 5).cursor, (cursorDownN c8start 5).cursor_line) = (2, 4) ∧
    ((cursorDownN c8collapsed 1).cursor, (cursorDownN c8collapsed 1).cursor_line)
        = (1, 1) ∧
    ((cursorDownN c8collapsed 2).cursor, (cursorDownN c8collapsed 2).cursor_line)
        = (2, 2) := by
  refine ⟨rfl, rfl, rfl, rfl, rfl, rfl, rfl⟩

/-! ### The `_empty` flag is never set (C10) -/

theorem subtree_empty_false {t c : NTree}
    (hP : ∀ x ∈ allNodes t, x.empty = false) (hc : c ∈ t.children) :
    ∀ x ∈ allNodes c, x.empty = false :=
  fun x hx => hP x (mem_allNodes_trans hc hx)

@[simp] theorem empty_withExpanded (t : NTree) (v : Bool) :
    (t.withExpanded v).empty = t.empty := by cases t; rfl

@[simp] theorem children_withExpanded (t : NTree) (v : Bool) :
    (t.withExpanded v).children = t.children := by cases t; rfl

@[simp] theorem empty_withEmpty (t : NTree) (v : Bool) :
    (t.withEmpty v).empty = v := by cases t; rfl

@[simp] theorem children_withEmpty (t : NTree) (v : Bool) :
    (t.withEmpty v).children = t.children := by cases t; rfl

/-- A pointwise in-place update whose result keeps every `_empty` flag false
preserves the all-false invariant. -/
theorem empty_false_updateAtR :
    ∀ (p : Path) (f : NTree → NTree),
      (∀ n, (∀ x ∈ allNodes n, x.empty = false) →
        ∀ x ∈ allNodes (f n), x.empty = false) →
      ∀ t : NTree, (∀ x ∈ allNodes t, x.empty = false) →
      ∀ x ∈ allNodes (updateAtR t p f), x.empty = false := by
  intro p
  induction p with
  | nil => intro f hf t ht; exact hf t ht
  | cons i q ih =>
    intro f hf t ht
    rw [updateAtR]
    apply ih _ ?_ t ht
    intro n hn x hx
    rw [allNodes_eq_cons] at hx
    rcases List.mem_cons.mp hx with hx | hx
    · rw [hx, NTree.empty_withChildren]
      exact hn n (self_mem_allNodes n)
    · rcases mem_allNodesL.mp hx with ⟨cc, hcc, hxcc⟩
      rw [NTree.children_withChildren] at hcc
      rcases mem_modifyIdx f i n.children hcc with hmem | ⟨y, hy, rfl⟩
      · exact hn x (mem_allNodes_trans hmem hxcc)
      · exact hf y (subtree_empty_false hn hy) x hxcc

theorem empty_false_append_child (nid : Nat) (label : String) (data : NodeData) :
    ∀ n : NTree, (∀ x ∈ allNodes n, x.empty = false) →
      ∀ x ∈ allNodes
        (n.withChildren (n.children ++ [NTree.mk nid label data false false false []])),
        x.empty = false := by
  intro n hn x hx
  rw [allNodes_eq_cons] at hx
  rcases List.mem_cons.mp hx with hx | hx
  · rw [hx, NTree.empty_withChildren]
    exact hn n (self_mem_allNodes n)
  · rcases mem_allNodesL.mp hx with ⟨cc, hcc, hxcc⟩
    rw [NTree.children_withChildren] at hcc
    rcases List.mem_append.mp hcc with hcc | hcc
    · exact hn x (mem_allNodes_trans hcc hxcc)
    · have hcc : cc = NTree.mk nid label data false false false [] := by
        simpa using hcc
      subst hcc
      have hxx : x = NTree.mk nid label data false false false [] := by
        simpa [allNodes, allNodesL] using hxcc
      rw [hxx]
      rfl

theorem applyOp_empty_false (c : TreeControl)
    (hP : ∀ x ∈ allNodes c.tree, x.empty = false) (op : Op) :
    ∀ x ∈ allNodes (applyOp c op).tree, x.empty = false := by
  cases op with
  | add pid label data =>
    rw [applyOp]
    rcases ha : TreeControl.add c pid label data with e | ⟨c1, r⟩
    · exact hP
    · obtain ⟨p, -, rfl, -⟩ := add_ok_inv ha
      exact empty_false_updateAtR p _ (empty_false_append_child _ label data) c.tree hP
  | nodeAdd pid label data =>
    rw [applyOp]
    rcases ha : tree_node_add c pid label data with e | ⟨c1, r⟩
    · exact hP
    · obtain ⟨p, -, rfl, -⟩ := tree_node_add_ok_inv ha
      refine empty_false_updateAtR p _ ?_ _
        (empty_false_updateAtR p _ (empty_false_append_child _ label data) c.tree hP)
      intro n hn x hx
      rw [allNodes_eq_cons] at hx
      rcases List.mem_cons.mp hx with hx | hx
      · rw [hx, empty_withEmpty]
      · rcases mem_allNodesL.mp hx with ⟨cc, hcc, hxcc⟩
        rw [children_withEmpty] at hcc
        exact hn x (mem_allNodes_trans hcc hxcc)
  | expand nid v =>
    rw [applyOp, expandNode]
    rcases hf : findPath c.tree nid with _ | p
    · exact hP
    · refine empty_false_updateAtR p _ ?_ c.tree hP
      intro n hn x hx
      rw [allNodes_eq_cons] at hx
      rcases List.mem_cons.mp hx with hx | hx
      · rw [hx, empty_withExpanded]
        exact hn n (self_mem_allNodes n)
      · rcases mem_allNodesL.mp hx with ⟨cc, hcc, hxcc⟩
        rw [children_withExpanded] at hcc
        exact hn x (mem_allNodes_trans hcc hxcc)
  | toggle nid =>
    rw [applyOp, toggleNode]
    rcases hf : findPath c.tree nid with _ | p
    · exact hP
    · refine empty_false_updateAtR p _ ?_ c.tree hP
      intro n hn x hx
      rw [allNodes_eq_cons] at hx
      rcases List.mem_cons.mp hx with hx | hx
      · rw [hx, empty_withExpanded]
        exact hn n (self_mem_allNodes n)
      · rcases mem_allNodesL.mp hx with ⟨cc, hcc, hxcc⟩
        rw [children_withExpanded] at hcc
        exact hn x (mem_allNodes_trans hcc hxcc)
  | cursorDown =>
    rw [applyOp]
    rcases hd : cursor_down c with e | c1
    · exact hP
    · rw [cursor_down_tree hd]
      exact hP
  | cursorUp =>
    rw [applyOp]
    rcases hd : cursor_up c with e | c1
    · exact hP
    · rw [cursor_up_tree hd]
      exact hP
  | keyHome =>
    rw [applyOp, key_home]
    exact hP
  | keyEnd =>
    rw [applyOp]
    rcases hd : key_end c with e | c1
    · exact hP
    · rw [key_end_tree hd]
      exact hP

/-- C10: starting from a fresh control, after any sequence of core
operations the `_empty` flag of every node is still `False`: it is
initialised `False` and the only assignment anywhere (`TreeNode.add`)
re-assigns `False`. -/
theorem C10_empty_never_true (label : String) (data : NodeData) (ops : List Op) :
    ∀ x ∈ allNodes (runOps (mkControl label data) ops).tree, x.empty = false := by
  have hgen : ∀ (ops : List Op) (c : TreeControl),
      (∀ x ∈ allNodes c.tree, x.empty = false) →
      ∀ x ∈ allNodes (runOps c ops).tree, x.empty = false := by
    intro ops
    induction ops with
    | nil => intro c hc; exact hc
    | cons op ops ih =>
      intro c hc
      rw [runOps]
      exact ih (applyOp c op) (applyOp_empty_false c hc op)
  apply hgen
  intro x hx
  have hx : x = NTree.mk 0 label data false false false [] := by
    simpa [mkControl, allNodes, allNodesL] using hx
  rw [hx]
  rfl

/-- C10 witness: after a node add and a toggle, the root's flag is still
false. -/
theorem C10_witness :
    (runOps (mkControl "r" 0) [Op.nodeAdd 0 "a" 0, Op.toggle 0]).tree.empty = false :=
  C10_empty_never_true "r" 0 [Op.nodeAdd 0 "a" 0, Op.toggle 0]
    (runOps (mkControl "r" 0) [Op.nodeAdd 0 "a" 0, Op.toggle 0]).tree
    (self_mem_allNodes _)

end TreeSpec

namespace EventSpec

/-!
### The event variant table (`src/textual/events.py`)

`Event.__init_subclass__` (lines 27-28) accepts the class keyword `bubble`
with default `False` and forwards it to `Message.__init_subclass__`.

Modelled from the spec: `Message.__init_subclass__` (in `message.py`, which
is not part of these sources) records the forwarded `bubble` keyword as the
variant's bubble flag — the spec (§3) describes `bubble` as a "per-kind
boolean, fixed at variant definition".  Consequently the bubble flag of each
event variant is exactly the `bubble` keyword written at its `class`
statement in `events.py`, and `False` (the default of
`Event.__init_subclass__`) when none is written.
-/

/-- The closed set of event variants defined in `events.py`. -/
inductive EventKind : Type where
  | noneEvent | shutdownRequest | shutdown | load | startup | created
  | updated | idle | resize | mount | unmount
  | inputEvent | key
  | mouseEvent | mouseMove | mouseDown | mouseUp
  | mouseScrollDown | mouseScrollUp
  | click | doubleClick
  | timer | enter | leave | focus | blur | update
  deriving DecidableEq

open EventKind

/-- The `bubble` class keyword written at each `class` statement of
`events.py`, when one is written: only `InputEvent` (line 86) and `Key`
(line 91) pass `bubble=True`; every other class statement passes nothing. -/
def bubbleKwarg : EventKind → Option Bool
  | inputEvent => some true
  | key => some true
  | _ => none

/-- The default of the `bubble` parameter of `Event.__init_subclass__`
(line 27). -/
def initSubclassDefault : Bool := false

/-- The bubble flag fixed at variant definition: the keyword argument if the
class statement passes one, otherwise the default forwarded by
`Event.__init_subclass__`. -/
def bubble (k : EventKind) : Bool := (bubbleKwarg k).getD initSubclassDefault

/-- C4 counterexample: no mouse variant's `class` statement passes
`bubble=True`, so under the forwarding of `Event.__init_subclass__` (default
`False`) every mouse event variant has bubble flag `false` — the claim that
they are all `true` is refuted. -/
theorem C4_counterexample :
    ¬(bubble .mouseMove = true ∧ bubble .mouseDown = true ∧
      bubble .mouseUp = true ∧ bubble .click = true ∧
      bubble .doubleClick = true ∧ bubble .mouseScrollDown = true ∧
      bubble .mouseScrollUp = true) := by
  decide

/-- C4 (amended): every mouse event variant (MouseMove, MouseDown, MouseUp,
Click, DoubleClick, MouseScrollDown, MouseScrollUp) has its per-kind bubble
flag equal to `false`, fixed at variant definition, because none of those
variant definitions passes the `bubble` keyword and the default of
`Event.__init_subclass__` is `False`. -/
theorem C4_mouse_bubble_false :
    bubble .mouseMove = false ∧ bubble .mouseDown = false ∧
    bubble .mouseUp = false ∧ bubble .click = false ∧
    bubble .doubleClick = false ∧ bubble .mouseScrollDown = false ∧
    bubble .mouseScrollUp = false := by
  decide

end EventSpec
